import Mathlib

/-!
Verification of the pure core of `maps_scraper.py` (a business-listing
scraper): phone normalization, email validation, the email-harvest skip
policy, deduplication with email merging, the scroll-stability pagination
loop, the retry/backoff wrapper, checkpoint round-trips, and the
detail-page field extractor.

Python strings are modelled as lists of characters (`Str`); each Python
string method used by the source is embedded as a structural, executable
function over `Str` (Python `\d`, `\s`, `lower` are modelled on their
ASCII behaviour, which is what the scraped data exercises).
-/

/-- Python strings are modelled as lists of characters. -/
abbrev Str := List Char

/-- Character data of a Lean string literal, used to write `Str` constants. -/
def str (s : String) : Str := s.data

namespace Py

/-- Python `str.lower` (ASCII model). -/
def lower (s : Str) : Str := s.map Char.toLower

/-- Python `str.strip()`: drop leading and trailing whitespace. -/
def strip (s : Str) : Str :=
  ((s.dropWhile Char.isWhitespace).reverse.dropWhile Char.isWhitespace).reverse

/-- Python `s.startswith(p)`. -/
def startsWith (s p : Str) : Bool := p.isPrefixOf s

/-- Python `s.endswith(p)`. -/
def endsWith (s p : Str) : Bool := p.isSuffixOf s

/-- Python `p in s` (substring containment). -/
def containsSub (s p : Str) : Bool :=
  match s with
  | [] => p.isEmpty
  | _ :: rest => p.isPrefixOf s || containsSub rest p

/-- Helper for `Py.split`: fuel-driven scan for non-overlapping separator
occurrences, left to right (the fuel is the length of the scanned list, so
it never runs out). -/
def splitGo (sep : Str) : Nat → Str → Str → List Str
  | _, [], acc => [acc.reverse]
  | 0, l, acc => [acc.reverse ++ l]
  | fuel + 1, c :: cs, acc =>
    if sep.isPrefixOf (c :: cs) then
      acc.reverse :: splitGo sep fuel (cs.drop (sep.length - 1)) []
    else
      splitGo sep fuel cs (c :: acc)

/-- Python `s.split(sep)` for a non-empty separator. -/
def split (s sep : Str) : List Str := splitGo sep s.length s []

/-- Python `sep.join(pieces)`. -/
def join (sep : Str) (pieces : List Str) : Str := List.intercalate sep pieces

/-- Python `sorted(set(l))` for a list of strings: distinct elements in
increasing lexicographic (code point) order. -/
def sortedSet (l : List Str) : List Str := l.dedup.insertionSort (· ≤ ·)

/-- Python `s.replace(pat, "")` for a non-empty `pat`: remove every
non-overlapping occurrence of `pat`, scanning left to right. -/
def removeAll (pat : Str) : Str → Str
  | [] => []
  | c :: cs =>
    if pat.isPrefixOf (c :: cs) then removeAll pat (cs.drop (pat.length - 1))
    else c :: removeAll pat cs
  termination_by l => l.length
  decreasing_by
  all_goals simp only [List.length_cons, List.length_drop]
  all_goals omega

end Py

/-- The absent-sentinel `"N/A"`. -/
def NA : Str := str ("N/A")

/-- One business record: the five fields built by `extract_business_data`
and consumed by the dedup, checkpoint and output stages. -/
structure Business where
  name : Str
  address : Str
  phone : Str
  website : Str
  emails : Str
deriving DecidableEq, Repr, Inhabited

/-- Model of `normalize_phone` (maps_scraper.py:94): keep only digits and `+`,
passing the sentinel through unchanged. -/
def normalize_phone (phone : Str) : Str :=
  if phone = NA then phone
  else phone.filter (fun c => c.isDigit || c = '+')

/-- Character class `[a-zA-Z0-9._%+-]` of the email regex local part. -/
def localChar (c : Char) : Bool :=
  c.isAlphanum || c = '.' || c = '_' || c = '%' || c = '+' || c = '-'

/-- Character class `[a-zA-Z0-9.-]` of the email regex domain part. -/
def domainChar (c : Char) : Bool := c.isAlphanum || c = '.' || c = '-'

/-- The anchored regex `^[a-zA-Z0-9][a-zA-Z0-9._%+-]*@[a-zA-Z0-9.-]+\.[a-zA-Z]{2,}$`
of `validate_email` (maps_scraper.py:102), decided deterministically: the
`@` of a match is necessarily the first `@`, and the final `\.[a-zA-Z]{2,}`
is necessarily anchored at the last `.`. -/
def emailRegexMatch (s : Str) : Bool :=
  let localPart := s.takeWhile (· ≠ '@')
  let rest := s.dropWhile (· ≠ '@')
  match rest with
  | '@' :: domainPart =>
    (match localPart with
     | [] => false
     | c :: lrest => c.isAlphanum && lrest.all localChar) &&
    domainPart.all domainChar &&
    (let revTld := domainPart.reverse.takeWhile (· ≠ '.')
     match domainPart.reverse.dropWhile (· ≠ '.') with
     | '.' :: d => decide (2 ≤ revTld.length) && revTld.all Char.isAlpha &&
         decide (1 ≤ d.length)
     | _ => false)
  | _ => false

/-- Placeholder local parts rejected by `validate_email` (maps_scraper.py:107). -/
def invalid_patterns : List Str :=
  [str ("test@"), str ("example@"), str ("temp@"), str ("placeholder@"),
   str ("noreply@"), str ("no-reply@")]

/-- Image-file extensions rejected by `validate_email` (maps_scraper.py:108). -/
def invalid_extensions : List Str :=
  [str (".png"), str (".jpg"), str (".gif"), str (".svg"), str (".webp")]

/-- Model of `validate_email` (maps_scraper.py:100-116). -/
def validate_email (email : Str) : Bool :=
  if !emailRegexMatch email then false
  else
    let email_lower := Py.lower email
    if invalid_patterns.any (fun p => Py.startsWith email_lower p) then false
    else if invalid_extensions.any (fun ext => Py.endsWith email_lower ext) then false
    else true

/-- The block set `SKIP_EMAIL_DOMAINS` (maps_scraper.py:70-74). -/
def SKIP_EMAIL_DOMAINS : List Str :=
  [str ("facebook.com"), str ("instagram.com"), str ("twitter.com"), str ("youtube.com"),
   str ("tiktok.com"), str ("linkedin.com"), str ("pinterest.com"), str ("google.com"),
   str ("maps.google.com"), str ("yelp.com"), str ("tripadvisor.com")]

/-- Model of Python `urlparse(url).netloc` for `scheme://netloc/...` URLs
(an external stdlib collaborator of `should_skip_email_extraction`): the
text between the first `://` and the next `/`, `?` or `#`; empty when the
URL has no `://`. -/
def urlNetloc : Str → Str
  | [] => []
  | c :: cs =>
    if (str ("://")).isPrefixOf (c :: cs) then
      (cs.drop 2).takeWhile (fun ch => ch ≠ '/' && ch ≠ '?' && ch ≠ '#')
    else urlNetloc cs

/-- Model of `should_skip_email_extraction` (maps_scraper.py:124-131): lowercase the
netloc, remove every occurrence of `www.`, and skip when any blocked domain
occurs as a substring. -/
def should_skip_email_extraction (website : Str) : Bool :=
  let domain := Py.lower (urlNetloc website)
  let domain2 := Py.removeAll (str ("www.")) domain
  SKIP_EMAIL_DOMAINS.any (fun skip => Py.containsSub domain2 skip)

/-- The emails step of the main loop (maps_scraper.py:614-620), with the
harvester `extract_emails_from_website` abstracted as an oracle from the
website to the set of emails it would find: the harvest runs only when
emails are not globally skipped, a website is present and the skip policy
does not match; the field is then the sorted comma-join, `N/A` when empty. -/
def mainEmailsField (skipEmails : Bool) (website : Str)
    (harvester : Str → List Str) : Str :=
  let emails :=
    if !skipEmails && website ≠ NA && !should_skip_email_extraction website then
      harvester website
    else []
  if emails.isEmpty then NA else Py.join (str (", ")) (Py.sortedSet emails)

/-- The composite dedup key (maps_scraper.py:199-208): lowercased-stripped
name paired with the normalized phone, falling back to the
lowercased-stripped address when the normalized phone is the sentinel. -/
def dedupKey (b : Business) : Str × Str :=
  let nameKey := Py.strip (Py.lower b.name)
  let phoneKey := normalize_phone b.phone
  if phoneKey = NA then (nameKey, Py.strip (Py.lower b.address))
  else (nameKey, phoneKey)

/-- The email merge of the dedup loop (maps_scraper.py:210-217): a later
duplicate whose emails field is present contributes the union of the
comma-split email sets, re-joined sorted; a later duplicate with sentinel
emails contributes nothing. -/
def mergeEmailsField (existing incoming : Str) : Str :=
  if incoming = NA then existing
  else
    let existing_emails := if existing = NA then [] else Py.split existing (str (", "))
    let new_emails := Py.split incoming (str (", "))
    let merged := Py.sortedSet (existing_emails ++ new_emails)
    if merged.isEmpty then NA else Py.join (str (", ")) merged

/-- One iteration of the dedup loop: the insertion-ordered `seen`
dictionary is modelled as an association list in insertion order; an
existing key merges emails into the stored canonical record, a new key
appends. -/
def dedupStep (acc : List ((Str × Str) × Business)) (b : Business) :
    List ((Str × Str) × Business) :=
  let k := dedupKey b
  if acc.any (fun p => decide (p.1 = k)) then
    acc.map (fun p =>
      if p.1 = k then (p.1, { p.2 with emails := mergeEmailsField p.2.emails b.emails })
      else p)
  else acc ++ [(k, b)]

/-- Model of `deduplicate_businesses` (maps_scraper.py:195-221). -/
def deduplicate_businesses (businesses : List Business) : List Business :=
  (businesses.foldl dedupStep []).map Prod.snd

/-- The canonical record of a key: the first record with that key, its
non-email fields untouched, the emails of the later same-key records
merged in one by one by the stated merge. -/
def mergeEmailsInto (c : Business) (dups : List Business) : Business :=
  { c with emails := List.foldl mergeEmailsField c.emails (dups.map Business.emails) }

/-- The deduplication contract as the spec words it: the first record of
each composite key is canonical and keeps its non-email fields; later
records of the same key contribute only their emails through the stated
merge; canonical records are listed in first-occurrence order. -/
def dedupeFirstOccSpec : List Business → List Business
  | [] => []
  | b :: bs =>
    mergeEmailsInto b (bs.filter (fun x => decide (dedupKey x = dedupKey b))) ::
      dedupeFirstOccSpec (bs.filter (fun x => decide (dedupKey x ≠ dedupKey b)))
  termination_by l => l.length
  decreasing_by
  simp only [List.length_cons]
  have h := List.length_filter_le (fun x => decide (dedupKey x ≠ dedupKey b)) bs
  omega

/-- The pagination loop of `scroll_results_panel` (maps_scraper.py:229-262)
restricted to its stability-counter mechanism (no end-of-list sentinel and
no global deadline, as the claim assumes): `heights` is the sequence of
`scrollHeight` readings, the fuel starts at the `range(100)` safety cap,
`prev` and `ncc` mirror `prev_height` and `no_change_count`, and `done`
counts readings consumed so far.  The result is `some j` when the
stability break fires after consuming `j` readings, `none` when the loop
ends by the cap or by exhausting the modelled readings. -/
def scrollAux : Nat → List Nat → Nat → Nat → Nat → Option Nat
  | 0, _, _, _, _ => none
  | _ + 1, [], _, _, _ => none
  | fuel + 1, h :: rest, prev, ncc, done =>
    if h = prev then
      if 3 ≤ ncc + 1 then some (done + 1)
      else scrollAux fuel rest h (ncc + 1) (done + 1)
    else scrollAux fuel rest h 0 (done + 1)

/-- The stability-stop behaviour of `scroll_results_panel` on a sequence of
height readings: `prev_height` starts at 0, `no_change_count` at 0, capped
at 100 iterations. -/
def scroll_results_panel (heights : List Nat) : Option Nat :=
  scrollAux 100 heights 0 0 0

/-- Comparison `t` (1-based) of the loop relative to a starting
`prev_height` of `prev`: reading `t` exists and equals reading `t - 1`,
where reading 0 is `prev` itself. -/
def unchangedFrom (prev : Nat) (heights : List Nat) (t : Nat) : Prop :=
  1 ≤ t ∧ heights[t - 1]? ≠ none ∧ heights[t - 1]? = (prev :: heights)[t - 1]?

instance (prev : Nat) (heights : List Nat) (t : Nat) :
    Decidable (unchangedFrom prev heights t) := by
  unfold unchangedFrom; exact inferInstance

/-- Reading `t` exists and is unchanged from reading `t - 1`, reading 0
being the initial `prev_height = 0`. -/
def unchangedAt (heights : List Nat) (t : Nat) : Prop := unchangedFrom 0 heights t

instance (heights : List Nat) (t : Nat) : Decidable (unchangedAt heights t) := by
  unfold unchangedAt; exact inferInstance

/-- Reading `t` is the third consecutive unchanged reading. -/
def thirdUnchangedAt (heights : List Nat) (t : Nat) : Prop :=
  3 ≤ t ∧ unchangedAt heights t ∧ unchangedAt heights (t - 1) ∧ unchangedAt heights (t - 2)

instance (heights : List Nat) (t : Nat) : Decidable (thirdUnchangedAt heights t) := by
  unfold thirdUnchangedAt; exact inferInstance

/-- The stability break fires at step `t` of the loop, started with
`prev_height = prev` and `no_change_count = ncc`: either the last three
comparisons were all unchanged, or every comparison so far was unchanged
and together with the carried-in counter they reach three. -/
def fireAt (prev ncc : Nat) (heights : List Nat) (t : Nat) : Prop :=
  (3 ≤ t ∧ unchangedFrom prev heights t ∧ unchangedFrom prev heights (t - 1) ∧
    unchangedFrom prev heights (t - 2)) ∨
  (t < 3 ∧ 3 ≤ ncc + t ∧ ∀ i, 1 ≤ i → i ≤ t → unchangedFrom prev heights i)

instance (prev ncc : Nat) (heights : List Nat) (t : Nat) :
    Decidable (fireAt prev ncc heights t) := by
  unfold fireAt
  have h : Decidable (∀ i, 1 ≤ i → i ≤ t → unchangedFrom prev heights i) :=
    decidable_of_iff (∀ i, i < t + 1 → 1 ≤ i → unchangedFrom prev heights i)
      ⟨fun h i h1 h2 => h i (by omega) h1, fun h i h2 h1 => h i h1 (by omega)⟩
  exact inferInstance

/-- Three consecutive equal height readings occur, the literal wording of
the claim: some reading (0-based index into `heights`) equal to its two
successors. -/
def threeEqualReadings (heights : List Nat) : Prop :=
  ∃ i v, heights[i]? = some v ∧ heights[i+1]? = some v ∧ heights[i+2]? = some v

/-- Model of `retry_action` (maps_scraper.py:158-169), with the flaky action
abstracted as the sequence of its per-call outcomes (`attempts k` is what
the k-th call, 0-based, produces: an error or a value) and the back-off
sleeps made explicit.  Arguments: outcomes, remaining iterations of
`range(max_retries)`, current attempt index, current delay, sleeps so far.
The result pairs the run outcome (`none` models the final `return None`
fall-through, reached only when `max_retries = 0`) with the list of delays
slept, in order. -/
def retryAux {α : Type} (attempts : Nat → Except Str α) :
    Nat → Nat → ℚ → List ℚ → Option (Except Str α) × List ℚ
  | 0, _, _, sleeps => (none, sleeps)
  | remaining + 1, attempt, delay, sleeps =>
    match attempts attempt with
    | .ok v => (some (.ok v), sleeps)
    | .error e =>
      if remaining = 0 then (some (.error e), sleeps)
      else retryAux attempts remaining (attempt + 1) (delay * (3 / 2)) (sleeps ++ [delay])

/-- The model of `retry_action` run from attempt 0 with initial delay `delay`. -/
def retry_action {α : Type} (attempts : Nat → Except Str α) (max_retries : Nat)
    (delay : ℚ) : Option (Except Str α) × List ℚ :=
  retryAux attempts max_retries 0 delay []

/-- JSON documents, the shape `json.dump`/`json.load` round-trip through
the checkpoint file. -/
inductive Json where
  | jstr : Str → Json
  | jnum : Nat → Json
  | jarr : List Json → Json
  | jobj : List (Str × Json) → Json

/-- Field access on a JSON object (Python `checkpoint["key"]`). -/
def Json.getField : Json → Str → Option Json
  | .jobj kvs, k => kvs.lookup k
  | _, _ => none

/-- JSON encoding of one business record, as the dicts of the scraper serialize. -/
def encodeBusiness (b : Business) : Json :=
  .jobj [(str ("name"), .jstr b.name), (str ("address"), .jstr b.address),
         (str ("phone"), .jstr b.phone), (str ("website"), .jstr b.website),
         (str ("emails"), .jstr b.emails)]

/-- Model of `save_checkpoint` (maps_scraper.py:171-181): the JSON document written
to the checkpoint file (the file write itself and `json.dump` are external
collaborators; the model keeps the document). -/
def save_checkpoint (timestamp : Str) (businesses : List Business) (index : Nat) : Json :=
  .jobj [(str ("timestamp"), .jstr timestamp), (str ("index"), .jnum index),
         (str ("businesses_count"), .jnum businesses.length),
         (str ("businesses"), .jarr (businesses.map encodeBusiness))]

/-- Reading one business record back out of checkpoint JSON. -/
def decodeBusiness (j : Json) : Option Business :=
  match j.getField (str ("name")), j.getField (str ("address")), j.getField (str ("phone")),
        j.getField (str ("website")), j.getField (str ("emails")) with
  | some (.jstr n), some (.jstr a), some (.jstr p), some (.jstr w), some (.jstr e) =>
    some ⟨n, a, p, w, e⟩
  | _, _, _, _, _ => none

/-- Decode every element of the `businesses` array of a checkpoint. -/
def decodeBusinessList : List Json → Option (List Business)
  | [] => some []
  | j :: rest =>
    match decodeBusiness j, decodeBusinessList rest with
    | some b, some bs => some (b :: bs)
    | _, _ => none

/-- Model of `load_checkpoint` (maps_scraper.py:183-193) followed by the resume
reads of `main` (maps_scraper.py:484-485): the `businesses` list and the
`index` recovered from the checkpoint file content (`none` when the file
is absent or malformed). -/
def load_checkpoint (file : Option Json) : Option (List Business × Nat) :=
  match file with
  | none => none
  | some ckpt =>
    match ckpt.getField (str ("businesses")), ckpt.getField (str ("index")) with
    | some (.jarr items), some (.jnum index) =>
      match decodeBusinessList items with
      | some bs => some (bs, index)
      | none => none
    | _, _ => none

/-- Character class `[\d\s\-\(\)\+]` of the phone regexes (ASCII model of
`\d` and `\s`). -/
def phoneCharClass (c : Char) : Bool :=
  c.isDigit || c.isWhitespace || c = '-' || c = '(' || c = ')' || c = '+'

/-- Fuel-driven helper for `firstClassRun`. -/
def firstClassRunGo (p : Char → Bool) (minLen : Nat) : Nat → Str → Option Str
  | _, [] => none
  | 0, _ => none
  | fuel + 1, c :: cs =>
    if p c then
      let run := c :: cs.takeWhile p
      if minLen ≤ run.length then some run
      else firstClassRunGo p minLen fuel (cs.dropWhile p)
    else firstClassRunGo p minLen fuel cs

/-- Model of `re.search` of a character-class pattern with a minimum repetition
count (`[...]+` is `minLen = 1`, `[...]{10,}` is `minLen = 10`): the
leftmost maximal run of class characters of at least that length. -/
def firstClassRun (p : Char → Bool) (minLen : Nat) (s : Str) : Option Str :=
  firstClassRunGo p minLen s.length s

/-- Model of the URL search regex (https, optional s, colon-slash-slash, then at
least one non-whitespace character): the leftmost occurrence of
`http://` or `https://` followed by at least one non-whitespace character,
extended greedily through non-whitespace. -/
def findUrl : Str → Option Str
  | [] => none
  | c :: cs =>
    if (str ("https://")).isPrefixOf (c :: cs) then
      let tok := ((c :: cs).drop 8).takeWhile (fun ch => ¬ ch.isWhitespace)
      if tok.isEmpty then findUrl cs else some (str ("https://") ++ tok)
    else if (str ("http://")).isPrefixOf (c :: cs) then
      let tok := ((c :: cs).drop 7).takeWhile (fun ch => ¬ ch.isWhitespace)
      if tok.isEmpty then findUrl cs else some (str ("http://") ++ tok)
    else findUrl cs

/-- Python `s.split(":", 1)[-1]`: everything after the first colon, or the
whole string when there is no colon. -/
def afterFirstColon (s : Str) : Str :=
  if s.contains ':' then (s.dropWhile (· ≠ ':')).tail else s

/-- The pseudo-label set of the name validation gate
(maps_scraper.py:298). -/
def pseudoLabels : List Str :=
  [str ("results"), str ("overview"), str ("about"), str ("reviews"), str ("n/a")]

/-- What a detail page exposes to `extract_business_data`, with the
browser-automation query primitives abstracted: the resolved name text (if
any name selector matched), the `aria-label`s of the `button[data-item-id]`
elements in document order, and for each fallback selector pass the data of
the elements found, in selector order (phone: the `aria-label`-or-text of
each found element; website: the `href` and `aria-label` attributes;
address: the `aria-label`). -/
structure PageModel where
  nameText : Option Str
  buttonAriaLabels : List (Option Str)
  phoneFallbackTexts : List Str
  websiteFallbacks : List (Option Str × Option Str)
  addressFallbackArias : List (Option Str)

/-- The per-button classification of the contact-info loop
(maps_scraper.py:310-323): substring-match the lowercased accessible label
and fill exactly one field (or none). -/
def processButton (b : Business) (aria : Str) : Business :=
  let aria_lower := Py.lower aria
  if Py.containsSub aria_lower (str ("address:")) ||
      Py.containsSub aria_lower (str ("located at")) then
    { b with address := Py.strip (afterFirstColon aria) }
  else if Py.containsSub aria_lower (str ("phone:")) ||
      Py.containsSub aria_lower (str ("call")) then
    match firstClassRun phoneCharClass 1 aria with
    | some run => { b with phone := Py.strip run }
    | none => b
  else if Py.containsSub aria_lower (str ("website:")) ||
      Py.startsWith aria (str ("http")) then
    match findUrl aria with
    | some u => { b with website := Py.strip u }
    | none =>
      if Py.containsSub aria (str (":")) then
        { b with website := Py.strip (afterFirstColon aria) }
      else b
  else b

/-- The phone fallback pass (maps_scraper.py:333-346): first found element
whose text holds a run of at least 10 phone-class characters wins. -/
def phoneFromFallback : List Str → Option Str
  | [] => none
  | t :: ts =>
    match firstClassRun phoneCharClass 10 t with
    | some run => some (Py.strip run)
    | none => phoneFromFallback ts

/-- The website fallback pass (maps_scraper.py:349-368): an `href` starting
with `http` wins as-is; otherwise a URL found in the `aria-label` wins
unstripped; otherwise continue with the next found element. -/
def websiteFromFallback : List (Option Str × Option Str) → Option Str
  | [] => none
  | (href, aria) :: rest =>
    if (match href with
        | some h => Py.startsWith h (str ("http"))
        | none => false) then href
    else
      match aria with
      | some a =>
        (match findUrl a with
         | some u => some u
         | none => websiteFromFallback rest)
      | none => websiteFromFallback rest

/-- The address fallback pass (maps_scraper.py:371-382): first found
element whose lowercased `aria-label` holds `address:` wins. -/
def addressFromFallback : List (Option Str) → Option Str
  | [] => none
  | none :: rest => addressFromFallback rest
  | some a :: rest =>
    if Py.containsSub (Py.lower a) (str ("address:")) then
      some (Py.strip (afterFirstColon a))
    else addressFromFallback rest

/-- Steps 1-2 of `extract_business_data` (maps_scraper.py:281-295): the
all-sentinel record with the resolved, stripped name filled in (the name
stays the sentinel when no name selector matched). -/
def extractName (page : PageModel) : Business :=
  match page.nameText with
  | some t => { (⟨NA, NA, NA, NA, NA⟩ : Business) with name := Py.strip t }
  | none => ⟨NA, NA, NA, NA, NA⟩

/-- The detail-button loop of `extract_business_data`
(maps_scraper.py:302-326): buttons without an accessible label are
skipped, the rest are classified by `processButton` in order. -/
def extractButtons (b : Business) (arias : List (Option Str)) : Business :=
  arias.foldl
    (fun b oa =>
      match oa with
      | some a => processButton b a
      | none => b) b

/-- The per-field fallback passes of `extract_business_data`
(maps_scraper.py:330-385): each runs only when its field is still the
sentinel. -/
def extractFallbacks (b2 : Business) (page : PageModel) : Business :=
  let b3 :=
    if b2.phone = NA then
      match phoneFromFallback page.phoneFallbackTexts with
      | some ph => { b2 with phone := ph }
      | none => b2
    else b2
  let b4 :=
    if b3.website = NA then
      match websiteFromFallback page.websiteFallbacks with
      | some w => { b3 with website := w }
      | none => b3
    else b3
  if b4.address = NA then
    match addressFromFallback page.addressFallbackArias with
    | some ad => { b4 with address := ad }
    | none => b4
  else b4

/-- Model of `extract_business_data` (maps_scraper.py:279-387): resolve and strip
the name, reject empty and pseudo-label names before anything else, then
fill the contact fields from the detail buttons and the per-field fallback
passes. -/
def extract_business_data (page : PageModel) : Option Business :=
  let b1 := extractName page
  if b1.name = [] ∨ Py.lower b1.name ∈ pseudoLabels then none
  else some (extractFallbacks (extractButtons b1 page.buttonAriaLabels) page)

/-- The address value a detail button contributes, if any (mirrors the
branch structure of `processButton`). -/
def buttonAddressVal (aria : Str) : Option Str :=
  let aria_lower := Py.lower aria
  if Py.containsSub aria_lower (str ("address:")) ||
      Py.containsSub aria_lower (str ("located at")) then
    some (Py.strip (afterFirstColon aria))
  else none

/-- The phone value a detail button contributes, if any. -/
def buttonPhoneVal (aria : Str) : Option Str :=
  let aria_lower := Py.lower aria
  if Py.containsSub aria_lower (str ("address:")) ||
      Py.containsSub aria_lower (str ("located at")) then none
  else if Py.containsSub aria_lower (str ("phone:")) ||
      Py.containsSub aria_lower (str ("call")) then
    (firstClassRun phoneCharClass 1 aria).map Py.strip
  else none

/-- The website value a detail button contributes, if any. -/
def buttonWebsiteVal (aria : Str) : Option Str :=
  let aria_lower := Py.lower aria
  if Py.containsSub aria_lower (str ("address:")) ||
      Py.containsSub aria_lower (str ("located at")) then none
  else if Py.containsSub aria_lower (str ("phone:")) ||
      Py.containsSub aria_lower (str ("call")) then none
  else if Py.containsSub aria_lower (str ("website:")) ||
      Py.startsWith aria (str ("http")) then
    match findUrl aria with
    | some u => some (Py.strip u)
    | none =>
      if Py.containsSub aria (str (":")) then some (Py.strip (afterFirstColon aria))
      else none
  else none

/-- All address texts the button loop of a page can assign. -/
def buttonAddressVals (page : PageModel) : List Str :=
  page.buttonAriaLabels.filterMap (fun oa => oa.bind buttonAddressVal)

/-- All phone texts the button loop of a page can assign. -/
def buttonPhoneVals (page : PageModel) : List Str :=
  page.buttonAriaLabels.filterMap (fun oa => oa.bind buttonPhoneVal)

/-- All website texts the button loop of a page can assign. -/
def buttonWebsiteVals (page : PageModel) : List Str :=
  page.buttonAriaLabels.filterMap (fun oa => oa.bind buttonWebsiteVal)

/-- The resolved (stripped) business name of a detail page, `"N/A"` when no
name selector matched. -/
def resolvedName (page : PageModel) : Str :=
  match page.nameText with
  | some t => Py.strip t
  | none => NA

/-- The host transformation the spec describes for the skip policy: strip
one leading `www.`. -/
def stripLeadingWww (host : Str) : Str :=
  if (str ("www.")).isPrefixOf host then host.drop 4 else host

/-- The well-formedness invariant the data model states for the `emails`
field: the absent-sentinel, or a comma-join of a sorted, duplicate-free
list of entries, none of which is the sentinel itself. -/
def WellFormedEmails (e : Str) : Prop :=
  e = NA ∨
    (NA ∉ Py.split e (str (", ")) ∧ (Py.split e (str (", "))).Sorted (· ≤ ·) ∧
      (Py.split e (str (", "))).Nodup ∧ Py.join (str (", ")) (Py.split e (str (", "))) = e)

/-- The set of emails an `emails` field denotes: empty for the sentinel,
else the comma-split entries. -/
def emailSet (e : Str) : Finset Str :=
  if e = NA then ∅ else (Py.split e (str (", "))).toFinset

/-! ## Claim C7: phone normalization -/

/-- Claim C7: phone normalization is idempotent for every phone string, and
normalizing the absent-sentinel returns the sentinel unchanged. -/
theorem c7_normalize_phone_idempotent :
    (∀ p : Str, normalize_phone (normalize_phone p) = normalize_phone p) ∧
    normalize_phone NA = NA := by
  constructor
  · intro p
    by_cases hp : p = NA
    · simp [normalize_phone, hp]
    · have hne : p.filter (fun c => c.isDigit || c = '+') ≠ NA := by
        intro h
        have hN : 'N' ∈ p.filter (fun c => c.isDigit || c = '+') := by
          rw [h]; decide
        rw [List.mem_filter] at hN
        exact absurd hN.2 (by decide)
      have hval : normalize_phone p = p.filter (fun c => c.isDigit || c = '+') := by
        rw [normalize_phone, if_neg hp]
      rw [hval, normalize_phone, if_neg hne, List.filter_filter]
      simp
  · simp [normalize_phone]

/-! ## Claim C5: email validation rejections -/

/-- Claim C5: email validation returns false whenever the lowercased
candidate ends in one of the image-file extensions or starts with one of
the placeholder local parts, regardless of the regex shape check. -/
theorem c5_validate_email_rejects (email : Str)
    (h : (∃ ext ∈ invalid_extensions, Py.endsWith (Py.lower email) ext = true) ∨
         (∃ p ∈ invalid_patterns, Py.startsWith (Py.lower email) p = true)) :
    validate_email email = false := by
  unfold validate_email
  cases hr : emailRegexMatch email with
  | false => simp
  | true =>
    simp only [Bool.not_true, Bool.false_eq_true, if_false]
    rcases h with ⟨ext, hm, he⟩ | ⟨p, hm, hs⟩
    · have hany : invalid_extensions.any (fun ext => Py.endsWith (Py.lower email) ext) = true :=
        List.any_eq_true.mpr ⟨ext, hm, he⟩
      by_cases hpat : invalid_patterns.any (fun p => Py.startsWith (Py.lower email) p) = true
      · simp [hpat]
      · simp [hpat, hany]
    · have hany : invalid_patterns.any (fun p => Py.startsWith (Py.lower email) p) = true :=
        List.any_eq_true.mpr ⟨p, hm, hs⟩
      simp [hany]

/-- Witness for C5 at two otherwise well-formed candidates: a placeholder
local part and an image-extension tail. -/
theorem c5_validate_email_rejects_witness :
    validate_email (str ("noreply@acme.com")) = false ∧
    validate_email (str ("logo@assets.example.png")) = false :=
  ⟨c5_validate_email_rejects (str ("noreply@acme.com"))
      (Or.inr ⟨str ("noreply@"), by decide, by decide⟩),
   c5_validate_email_rejects (str ("logo@assets.example.png"))
      (Or.inl ⟨str (".png"), by decide, by decide⟩)⟩

/-! ## Claim C3: pseudo-label names yield no record -/

/-- Claim C3: a detail page whose resolved name is empty, or whose
trimmed lowercased name is one of the four pseudo-labels, yields no record
at all, whatever other fields the page would have provided. -/
theorem c3_pseudo_label_rejected (page : PageModel)
    (h : resolvedName page = [] ∨
      Py.lower (resolvedName page) ∈
        [str ("results"), str ("overview"), str ("about"), str ("reviews")]) :
    extract_business_data page = none := by
  have hsub : ∀ x : Str,
      x ∈ [str ("results"), str ("overview"), str ("about"), str ("reviews")] →
      x ∈ pseudoLabels := by
    intro x hx
    fin_cases hx <;> decide
  cases hn : page.nameText with
  | none =>
    simp only [extract_business_data, extractName, hn]
    rw [if_pos (Or.inr (by decide))]
  | some t =>
    have hres : resolvedName page = Py.strip t := by simp [resolvedName, hn]
    rw [hres] at h
    simp only [extract_business_data, extractName, hn]
    exact if_pos (h.imp id (hsub _))

/-- Witness for C3: a page named `Reviews` with extractable address, phone
and website data still yields no record. -/
theorem c3_pseudo_label_rejected_witness :
    extract_business_data
      ⟨some (str ("Reviews")),
       [some (str ("Address: 1 Main St")), some (str ("Phone: (555) 123-4567")),
        some (str ("Website: https://acme.example"))],
       [str ("(555) 123-4567 ext 10")], [(some (str ("https://acme.example")), none)],
       [some (str ("Address: 1 Main St"))]⟩ = none := by
  apply c3_pseudo_label_rejected
  right
  decide

/-! ## Claim C8: checkpoint round-trip -/

/-- Decoding inverts encoding for one record. -/
theorem decodeBusiness_encodeBusiness (b : Business) :
    decodeBusiness (encodeBusiness b) = some b := rfl

/-- Decoding inverts encoding for a record list. -/
theorem decodeBusinessList_map_encode (l : List Business) :
    decodeBusinessList (l.map encodeBusiness) = some l := by
  induction l with
  | nil => rfl
  | cons b bs ih =>
    simp only [List.map_cons, decodeBusinessList, decodeBusiness_encodeBusiness, ih]

/-- Claim C8: saving a checkpoint and loading it back reproduces an equal
record list and the same index. -/
theorem c8_checkpoint_round_trip (timestamp : Str) (businesses : List Business)
    (index : Nat) :
    load_checkpoint (some (save_checkpoint timestamp businesses index)) =
      some (businesses, index) := by
  have h1 : (save_checkpoint timestamp businesses index).getField (str ("businesses")) =
      some (.jarr (businesses.map encodeBusiness)) := rfl
  have h2 : (save_checkpoint timestamp businesses index).getField (str ("index")) =
      some (.jnum index) := rfl
  simp only [load_checkpoint, h1, h2, decodeBusinessList_map_encode]

/-! ## Claim C9: retry with bounded exponential backoff -/

/-- Shifting a geometric delay list by one step. -/
theorem range_map_geom_succ (d : ℚ) (k : Nat) :
    (List.range (k + 1)).map (fun i => d * (3 / 2) ^ i) =
      d :: (List.range k).map (fun i => d * (3 / 2) * (3 / 2) ^ i) := by
  rw [List.range_succ_eq_map]
  simp only [List.map_cons, pow_zero, mul_one, List.map_map]
  have hfun : ((fun i => d * (3 / 2) ^ i) ∘ Nat.succ) =
      (fun i : Nat => d * (3 / 2) * (3 / 2) ^ i) := by
    funext i
    simp only [Function.comp_apply, pow_succ]
    ring
  rw [hfun]

/-- A successful attempt after `k` failures returns its value and has slept
the `k` geometrically growing delays. -/
theorem retryAux_success {α : Type} (attempts : Nat → Except Str α) :
    ∀ (k remaining attempt : Nat) (delay : ℚ) (sleeps : List ℚ) (v : α),
      k < remaining →
      attempts (attempt + k) = .ok v →
      (∀ j, j < k → ∃ e, attempts (attempt + j) = .error e) →
      retryAux attempts remaining attempt delay sleeps =
        (some (.ok v), sleeps ++ (List.range k).map (fun i => delay * (3 / 2) ^ i)) := by
  intro k
  induction k with
  | zero =>
    intro remaining attempt delay sleeps v hk hok _
    obtain ⟨r, rfl⟩ : ∃ r, remaining = r + 1 := ⟨remaining - 1, by omega⟩
    rw [retryAux]
    simp only [Nat.add_zero] at hok
    rw [hok]
    simp
  | succ k ih =>
    intro remaining attempt delay sleeps v hk hok hfail
    obtain ⟨r, rfl⟩ : ∃ r, remaining = r + 1 := ⟨remaining - 1, by omega⟩
    obtain ⟨e, he⟩ := hfail 0 (by omega)
    simp only [Nat.add_zero] at he
    have hr0 : ¬ r = 0 := by omega
    rw [retryAux]
    simp only [he]
    rw [if_neg hr0]
    rw [ih r (attempt + 1) (delay * (3 / 2)) (sleeps ++ [delay]) v (by omega)
      (by rw [show attempt + 1 + k = attempt + (k + 1) by omega]; exact hok)
      (by intro j hj
          obtain ⟨e', he'⟩ := hfail (j + 1) (by omega)
          exact ⟨e', by rw [show attempt + 1 + j = attempt + (j + 1) by omega]; exact he'⟩)]
    rw [range_map_geom_succ]
    simp

/-- When every attempt fails, the last failure is re-raised and all but the
final attempt slept a geometrically growing delay. -/
theorem retryAux_allFail {α : Type} (attempts : Nat → Except Str α) :
    ∀ (remaining attempt : Nat) (delay : ℚ) (sleeps : List ℚ),
      1 ≤ remaining →
      (∀ j, j < remaining → ∃ e, attempts (attempt + j) = .error e) →
      ∃ e, attempts (attempt + remaining - 1) = .error e ∧
        retryAux attempts remaining attempt delay sleeps =
          (some (.error e),
            sleeps ++ (List.range (remaining - 1)).map (fun i => delay * (3 / 2) ^ i)) := by
  intro remaining
  induction remaining with
  | zero => intro attempt delay sleeps h1; omega
  | succ r ih =>
    intro attempt delay sleeps h1 hfail
    obtain ⟨e, he⟩ := hfail 0 (by omega)
    simp only [Nat.add_zero] at he
    cases hr : r with
    | zero =>
      refine ⟨e, by simpa using he, ?_⟩
      rw [retryAux]
      simp only [he]
      simp
    | succ r2 =>
      obtain ⟨e2, he2, hrec⟩ := ih (attempt + 1) (delay * (3 / 2)) (sleeps ++ [delay])
        (by omega)
        (by intro j hj
            obtain ⟨e', he'⟩ := hfail (j + 1) (by omega)
            exact ⟨e', by rw [show attempt + 1 + j = attempt + (j + 1) by omega]; exact he'⟩)
      subst hr
      refine ⟨e2, by rw [show attempt + (r2 + 1 + 1) - 1 = attempt + 1 + (r2 + 1) - 1 by omega]; exact he2, ?_⟩
      rw [retryAux]
      simp only [he]
      rw [if_neg (by omega), hrec]
      rw [show r2 + 1 + 1 - 1 = (r2 + 1 - 1) + 1 by omega]
      rw [range_map_geom_succ]
      simp

/-- Claim C9: `retry_action` returns the result of the first successful
attempt; when every one of `max_retries` attempts fails it re-raises the
last failure; and the delays slept form the bounded exponential back-off
`d0 * 1.5 ^ i` — each delay is the previous one multiplied by 1.5 (3/2,
exactly representable). -/
theorem c9_retry_action_contract {α : Type} (attempts : Nat → Except Str α)
    (max_retries : Nat) (d0 : ℚ) :
    (∀ k v, k < max_retries → attempts k = .ok v →
      (∀ j, j < k → ∃ e, attempts j = .error e) →
      retry_action attempts max_retries d0 =
        (some (.ok v), (List.range k).map (fun i => d0 * (3 / 2) ^ i))) ∧
    (1 ≤ max_retries → (∀ j, j < max_retries → ∃ e, attempts j = .error e) →
      ∃ e, attempts (max_retries - 1) = .error e ∧
        retry_action attempts max_retries d0 =
          (some (.error e), (List.range (max_retries - 1)).map (fun i => d0 * (3 / 2) ^ i))) := by
  constructor
  · intro k v hk hok hfail
    have h := retryAux_success attempts k max_retries 0 d0 [] v hk
      (by simpa using hok) (by simpa using hfail)
    simpa using h
  · intro h1 hfail
    obtain ⟨e, he, hrun⟩ := retryAux_allFail attempts max_retries 0 d0 [] h1
      (by simpa using hfail)
    exact ⟨e, by simpa using he, by simpa using hrun⟩

/-- Witness for C9: one failure then a success returns the success and
sleeps exactly the initial delay. -/
theorem c9_retry_action_contract_witness :
    retry_action (fun k => if k = 0 then Except.error (str ("boom")) else Except.ok (42 : Nat))
        3 2 = (some (Except.ok 42), [(2 : ℚ)]) := by
  have h := (c9_retry_action_contract
      (fun k => if k = 0 then Except.error (str ("boom")) else Except.ok (42 : Nat)) 3 2).1
      1 42 (by omega) (by simp)
      (by intro j hj
          have hj0 : j = 0 := by omega
          subst hj0
          exact ⟨str ("boom"), by simp⟩)
  rw [h]
  simp [List.range_succ]

/-! ## Claim C6: dedup merge commutativity -/

/-- A split never yields the empty list. -/
theorem splitGo_ne_nil (sep : Str) :
    ∀ (fuel : Nat) (l acc : Str), Py.splitGo sep fuel l acc ≠ [] := by
  intro fuel
  induction fuel with
  | zero => intro l acc; cases l <;> simp [Py.splitGo]
  | succ f ih =>
    intro l acc
    cases l with
    | nil => simp [Py.splitGo]
    | cons c cs =>
      rw [Py.splitGo]
      split
      · simp
      · exact ih cs (c :: acc)

/-- A split never yields the empty list. -/
theorem split_ne_nil (s sep : Str) : Py.split s sep ≠ [] :=
  splitGo_ne_nil sep s.length s []

/-- The operation `sorted(set(l))` is the identity on sorted duplicate-free lists. -/
theorem sortedSet_fixpoint (l : List Str) (hs : l.Sorted (· ≤ ·)) (hn : l.Nodup) :
    Py.sortedSet l = l := by
  unfold Py.sortedSet
  rw [hn.dedup]
  exact hs.insertionSort_eq

/-- The operation `sorted(set(. ++ .))` does not depend on the order of the union. -/
theorem sortedSet_comm (l1 l2 : List Str) :
    Py.sortedSet (l1 ++ l2) = Py.sortedSet (l2 ++ l1) := by
  unfold Py.sortedSet
  refine List.eq_of_perm_of_sorted ?_ (List.sorted_insertionSort _ _)
    (List.sorted_insertionSort _ _)
  exact (List.perm_insertionSort _ _).trans
    ((List.perm_append_comm).dedup.trans (List.perm_insertionSort _ _).symm)

/-- The operation `sorted(set(l))` of a non-empty list is non-empty. -/
theorem sortedSet_ne_nil (l : List Str) (h : l ≠ []) : Py.sortedSet l ≠ [] := by
  unfold Py.sortedSet
  intro hcontra
  have hperm := List.perm_insertionSort ((· ≤ ·) : Str → Str → Prop) l.dedup
  rw [hcontra] at hperm
  exact h ((List.dedup_eq_nil l).mp hperm.symm.eq_nil)

/-- On well-formed emails fields the dedup email merge is commutative as a
plain string equation. -/
theorem mergeEmailsField_comm (a b : Str)
    (ha : WellFormedEmails a) (hb : WellFormedEmails b) :
    mergeEmailsField a b = mergeEmailsField b a := by
  by_cases haNA : a = NA
  · by_cases hbNA : b = NA
    · simp [mergeEmailsField, haNA, hbNA]
    · -- a is the sentinel, b is a well-formed join: both sides give b back
      rcases hb with h | ⟨hna, hsort, hnodup, hjoin⟩
      · exact absurd h hbNA
      have hfix : Py.sortedSet (Py.split b (str (", "))) = Py.split b (str (", ")) :=
        sortedSet_fixpoint _ hsort hnodup
      have hne : ¬ (Py.sortedSet ([] ++ Py.split b (str (", ")))).isEmpty = true := by
        simp only [List.nil_append, hfix]
        simpa [List.isEmpty_iff] using split_ne_nil b (str (", "))
      simp only [mergeEmailsField, if_neg hbNA, if_pos haNA, if_pos rfl]
      rw [if_neg hne]
      simp only [List.nil_append, hfix, Py.join]
      exact hjoin
  · by_cases hbNA : b = NA
    · -- symmetric case
      rcases ha with h | ⟨hna, hsort, hnodup, hjoin⟩
      · exact absurd h haNA
      have hfix : Py.sortedSet (Py.split a (str (", "))) = Py.split a (str (", ")) :=
        sortedSet_fixpoint _ hsort hnodup
      have hne : ¬ (Py.sortedSet ([] ++ Py.split a (str (", ")))).isEmpty = true := by
        simp only [List.nil_append, hfix]
        simpa [List.isEmpty_iff] using split_ne_nil a (str (", "))
      simp only [mergeEmailsField, if_neg haNA, if_pos hbNA, if_pos rfl]
      rw [if_neg hne]
      simp only [List.nil_append, hfix, Py.join]
      exact hjoin.symm
    · -- both present: the union is symmetric
      simp only [mergeEmailsField, if_neg haNA, if_neg hbNA]
      rw [sortedSet_comm (Py.split a (str (", "))) (Py.split b (str (", ")))]

/-- Deduplicating a two-record list with equal keys merges the second into
the first. -/
theorem dedupe_pair (A B : Business) (hkey : dedupKey A = dedupKey B) :
    deduplicate_businesses [A, B] =
      [{ A with emails := mergeEmailsField A.emails B.emails }] := by
  unfold deduplicate_businesses
  simp only [List.foldl_cons, List.foldl_nil]
  have h1 : dedupStep [] A = [(dedupKey A, A)] := by
    simp [dedupStep]
  rw [h1]
  unfold dedupStep
  rw [if_pos (by simp [hkey])]
  simp [hkey]

/-- Claim C6: for two records sharing a composite dedup key (emails fields
well-formed per the data model), deduplicating `[A, B]` and `[B, A]` yields
the same email set in the resulting merged record. -/
theorem c6_dedup_merge_commutative (A B : Business)
    (hkey : dedupKey A = dedupKey B)
    (hA : WellFormedEmails A.emails) (hB : WellFormedEmails B.emails) :
    (deduplicate_businesses [A, B]).map (fun b => emailSet b.emails) =
    (deduplicate_businesses [B, A]).map (fun b => emailSet b.emails) := by
  rw [dedupe_pair A B hkey, dedupe_pair B A hkey.symm]
  simp only [List.map_cons, List.map_nil]
  rw [mergeEmailsField_comm A.emails B.emails hA hB]

/-- Witness for C6 at the two records of the spec scenario. -/
theorem c6_dedup_merge_commutative_witness :
    (deduplicate_businesses
        [⟨str ("Acme Cafe"), str ("1 Main St"), str ("(555) 123-4567"), NA, str ("a@x.com")⟩,
         ⟨str ("acme cafe"), str ("2 Oak Ave"), str ("555-123-4567"), NA, str ("b@x.com")⟩]).map
        (fun b => emailSet b.emails) =
    (deduplicate_businesses
        [⟨str ("acme cafe"), str ("2 Oak Ave"), str ("555-123-4567"), NA, str ("b@x.com")⟩,
         ⟨str ("Acme Cafe"), str ("1 Main St"), str ("(555) 123-4567"), NA, str ("a@x.com")⟩]).map
        (fun b => emailSet b.emails) := by
  apply c6_dedup_merge_commutative
  · decide
  · refine Or.inr ?_
    rw [show Py.split (str ("a@x.com")) (str (", ")) = [str ("a@x.com")] from by decide]
    exact ⟨by decide, by simp, by simp, by decide⟩
  · refine Or.inr ?_
    rw [show Py.split (str ("b@x.com")) (str (", ")) = [str ("b@x.com")] from by decide]
    exact ⟨by decide, by simp, by simp, by decide⟩

/-! ## Claim C10: shape of extracted records -/

/-- The four pseudo-labels of the claim are among the rejected labels. -/
theorem fourLabels_subset_pseudoLabels (x : Str)
    (hx : x ∈ [str ("results"), str ("overview"), str ("about"), str ("reviews")]) :
    x ∈ pseudoLabels := by
  fin_cases hx <;> decide

/-- A detail button never touches the name. -/
theorem processButton_name (b : Business) (a : Str) :
    (processButton b a).name = b.name := by
  simp only [processButton]
  split_ifs <;>
    first
      | rfl
      | (cases firstClassRun phoneCharClass 1 a <;> rfl)
      | (cases findUrl a <;> rfl)

/-- A detail button never touches the emails field. -/
theorem processButton_emails (b : Business) (a : Str) :
    (processButton b a).emails = b.emails := by
  simp only [processButton]
  split_ifs <;>
    first
      | rfl
      | (cases firstClassRun phoneCharClass 1 a <;> rfl)
      | (cases findUrl a <;> rfl)

/-- The address a detail button leaves behind. -/
theorem processButton_address (b : Business) (a : Str) :
    (processButton b a).address = (buttonAddressVal a).getD b.address := by
  simp only [processButton, buttonAddressVal]
  split_ifs <;>
    first
      | rfl
      | (cases firstClassRun phoneCharClass 1 a <;> rfl)
      | (cases findUrl a <;> rfl)

/-- The phone a detail button leaves behind. -/
theorem processButton_phone (b : Business) (a : Str) :
    (processButton b a).phone = (buttonPhoneVal a).getD b.phone := by
  simp only [processButton, buttonPhoneVal]
  split_ifs <;>
    first
      | rfl
      | (cases firstClassRun phoneCharClass 1 a <;> rfl)
      | (cases findUrl a <;> rfl)

/-- The website a detail button leaves behind. -/
theorem processButton_website (b : Business) (a : Str) :
    (processButton b a).website = (buttonWebsiteVal a).getD b.website := by
  simp only [processButton, buttonWebsiteVal]
  split_ifs <;>
    first
      | rfl
      | (cases firstClassRun phoneCharClass 1 a <;> rfl)
      | (cases findUrl a <;> rfl)

/-- The button loop never touches the name. -/
theorem extractButtons_name (init : Business) (l : List (Option Str)) :
    (extractButtons init l).name = init.name := by
  induction l generalizing init with
  | nil => rfl
  | cons oa rest ih =>
    rw [extractButtons, List.foldl_cons]
    rw [show List.foldl _ _ rest = extractButtons _ rest from rfl, ih]
    cases oa with
    | none => rfl
    | some a => exact processButton_name init a

/-- The button loop never touches the emails field. -/
theorem extractButtons_emails (init : Business) (l : List (Option Str)) :
    (extractButtons init l).emails = init.emails := by
  induction l generalizing init with
  | nil => rfl
  | cons oa rest ih =>
    rw [extractButtons, List.foldl_cons]
    rw [show List.foldl _ _ rest = extractButtons _ rest from rfl, ih]
    cases oa with
    | none => rfl
    | some a => exact processButton_emails init a

/-- After the button loop the address is the initial one or one of the
button-contributed address texts. -/
theorem extractButtons_address (init : Business) (l : List (Option Str)) :
    (extractButtons init l).address = init.address ∨
    (extractButtons init l).address ∈ l.filterMap (fun oa => oa.bind buttonAddressVal) := by
  induction l generalizing init with
  | nil => left; rfl
  | cons oa rest ih =>
    have hstep : extractButtons init (oa :: rest) =
        extractButtons (match oa with | some a => processButton init a | none => init) rest := by
      rw [extractButtons, List.foldl_cons]; rfl
    rw [hstep]
    cases oa with
    | none =>
      rcases ih init with h | h
      · left; exact h
      · right; simpa [List.filterMap_cons] using h
    | some a =>
      rcases ih (processButton init a) with h | h
      · rw [h, processButton_address]
        cases hv : buttonAddressVal a with
        | none => left; simp
        | some v => right; simp [List.filterMap_cons, hv]
      · right
        rw [List.filterMap_cons]
        cases hv : buttonAddressVal a with
        | none => simpa [hv] using h
        | some v => exact (by simpa [hv] using List.mem_cons_of_mem v h)

/-- After the button loop the phone is the initial one or one of the
button-contributed phone texts. -/
theorem extractButtons_phone (init : Business) (l : List (Option Str)) :
    (extractButtons init l).phone = init.phone ∨
    (extractButtons init l).phone ∈ l.filterMap (fun oa => oa.bind buttonPhoneVal) := by
  induction l generalizing init with
  | nil => left; rfl
  | cons oa rest ih =>
    have hstep : extractButtons init (oa :: rest) =
        extractButtons (match oa with | some a => processButton init a | none => init) rest := by
      rw [extractButtons, List.foldl_cons]; rfl
    rw [hstep]
    cases oa with
    | none =>
      rcases ih init with h | h
      · left; exact h
      · right; simpa [List.filterMap_cons] using h
    | some a =>
      rcases ih (processButton init a) with h | h
      · rw [h, processButton_phone]
        cases hv : buttonPhoneVal a with
        | none => left; simp
        | some v => right; simp [List.filterMap_cons, hv]
      · right
        rw [List.filterMap_cons]
        cases hv : buttonPhoneVal a with
        | none => simpa [hv] using h
        | some v => exact (by simpa [hv] using List.mem_cons_of_mem v h)

/-- After the button loop the website is the initial one or one of the
button-contributed website texts. -/
theorem extractButtons_website (init : Business) (l : List (Option Str)) :
    (extractButtons init l).website = init.website ∨
    (extractButtons init l).website ∈ l.filterMap (fun oa => oa.bind buttonWebsiteVal) := by
  induction l generalizing init with
  | nil => left; rfl
  | cons oa rest ih =>
    have hstep : extractButtons init (oa :: rest) =
        extractButtons (match oa with | some a => processButton init a | none => init) rest := by
      rw [extractButtons, List.foldl_cons]; rfl
    rw [hstep]
    cases oa with
    | none =>
      rcases ih init with h | h
      · left; exact h
      · right; simpa [List.filterMap_cons] using h
    | some a =>
      rcases ih (processButton init a) with h | h
      · rw [h, processButton_website]
        cases hv : buttonWebsiteVal a with
        | none => left; simp
        | some v => right; simp [List.filterMap_cons, hv]
      · right
        rw [List.filterMap_cons]
        cases hv : buttonWebsiteVal a with
        | none => simpa [hv] using h
        | some v => exact (by simpa [hv] using List.mem_cons_of_mem v h)

/-- The fallback passes never touch the name. -/
theorem extractFallbacks_name (b2 : Business) (page : PageModel) :
    (extractFallbacks b2 page).name = b2.name := by
  simp only [extractFallbacks]
  split_ifs <;>
    (try cases phoneFromFallback page.phoneFallbackTexts) <;>
    (try cases websiteFromFallback page.websiteFallbacks) <;>
    (try cases addressFromFallback page.addressFallbackArias) <;>
    rfl

/-- The fallback passes never touch the emails field. -/
theorem extractFallbacks_emails (b2 : Business) (page : PageModel) :
    (extractFallbacks b2 page).emails = b2.emails := by
  simp only [extractFallbacks]
  split_ifs <;>
    (try cases phoneFromFallback page.phoneFallbackTexts) <;>
    (try cases websiteFromFallback page.websiteFallbacks) <;>
    (try cases addressFromFallback page.addressFallbackArias) <;>
    rfl

/-- The fallback passes leave the address alone or set it from the address
fallback pass. -/
theorem extractFallbacks_address (b2 : Business) (page : PageModel) :
    (extractFallbacks b2 page).address = b2.address ∨
    addressFromFallback page.addressFallbackArias =
      some (extractFallbacks b2 page).address := by
  simp only [extractFallbacks]
  split_ifs <;>
    (try cases phoneFromFallback page.phoneFallbackTexts) <;>
    (try cases websiteFromFallback page.websiteFallbacks) <;>
    (try cases had : addressFromFallback page.addressFallbackArias) <;>
    simp [had]

/-- The fallback passes leave the phone alone or set it from the phone
fallback pass. -/
theorem extractFallbacks_phone (b2 : Business) (page : PageModel) :
    (extractFallbacks b2 page).phone = b2.phone ∨
    phoneFromFallback page.phoneFallbackTexts =
      some (extractFallbacks b2 page).phone := by
  simp only [extractFallbacks]
  split_ifs <;>
    (try cases hph : phoneFromFallback page.phoneFallbackTexts) <;>
    (try cases websiteFromFallback page.websiteFallbacks) <;>
    (try cases addressFromFallback page.addressFallbackArias) <;>
    simp [hph]

/-- The fallback passes leave the website alone or set it from the website
fallback pass. -/
theorem extractFallbacks_website (b2 : Business) (page : PageModel) :
    (extractFallbacks b2 page).website = b2.website ∨
    websiteFromFallback page.websiteFallbacks =
      some (extractFallbacks b2 page).website := by
  simp only [extractFallbacks]
  split_ifs <;>
    (try cases phoneFromFallback page.phoneFallbackTexts) <;>
    (try cases hw : websiteFromFallback page.websiteFallbacks) <;>
    (try cases addressFromFallback page.addressFallbackArias) <;>
    simp [hw]

/-- The record after the name step has the sentinel in all other fields. -/
theorem extractName_fields (page : PageModel) :
    (extractName page).address = NA ∧ (extractName page).phone = NA ∧
    (extractName page).website = NA ∧ (extractName page).emails = NA := by
  cases h : page.nameText <;> simp [extractName, h]

/-- Claim C10: every value `extract_business_data` returns is either no
record at all, or a record (of exactly the five `Business` fields) whose
emails field is still the sentinel, whose (already stripped) name is
non-empty and not case-insensitively a pseudo-label, and whose other
fields are each the sentinel or a text contributed by the button loop or
by the matching fallback pass. -/
theorem c10_extract_shape (page : PageModel) (b : Business)
    (h : extract_business_data page = some b) :
    b.emails = NA ∧ b.name ≠ [] ∧
    Py.lower b.name ∉ [str ("results"), str ("overview"), str ("about"), str ("reviews")] ∧
    (b.address = NA ∨ b.address ∈ buttonAddressVals page ∨
      addressFromFallback page.addressFallbackArias = some b.address) ∧
    (b.phone = NA ∨ b.phone ∈ buttonPhoneVals page ∨
      phoneFromFallback page.phoneFallbackTexts = some b.phone) ∧
    (b.website = NA ∨ b.website ∈ buttonWebsiteVals page ∨
      websiteFromFallback page.websiteFallbacks = some b.website) := by
  simp only [extract_business_data] at h
  by_cases hg : (extractName page).name = [] ∨ Py.lower (extractName page).name ∈ pseudoLabels
  · rw [if_pos hg] at h
    exact absurd h (by simp)
  · rw [if_neg hg] at h
    have hb : b = extractFallbacks (extractButtons (extractName page) page.buttonAriaLabels) page :=
      (Option.some.inj h).symm
    push_neg at hg
    obtain ⟨hgname, hglabel⟩ := hg
    subst hb
    refine ⟨?_, ?_, ?_, ?_, ?_, ?_⟩
    · rw [extractFallbacks_emails, extractButtons_emails]
      exact (extractName_fields page).2.2.2
    · rw [extractFallbacks_name, extractButtons_name]
      exact hgname
    · rw [extractFallbacks_name, extractButtons_name]
      intro hmem
      exact hglabel (fourLabels_subset_pseudoLabels _ hmem)
    · rcases extractFallbacks_address (extractButtons (extractName page) page.buttonAriaLabels) page with h1 | h1
      · rw [h1]
        rcases extractButtons_address (extractName page) page.buttonAriaLabels with h2 | h2
        · left
          rw [h2]
          exact (extractName_fields page).1
        · right; left; exact h2
      · right; right; exact h1
    · rcases extractFallbacks_phone (extractButtons (extractName page) page.buttonAriaLabels) page with h1 | h1
      · rw [h1]
        rcases extractButtons_phone (extractName page) page.buttonAriaLabels with h2 | h2
        · left
          rw [h2]
          exact (extractName_fields page).2.1
        · right; left; exact h2
      · right; right; exact h1
    · rcases extractFallbacks_website (extractButtons (extractName page) page.buttonAriaLabels) page with h1 | h1
      · rw [h1]
        rcases extractButtons_website (extractName page) page.buttonAriaLabels with h2 | h2
        · left
          rw [h2]
          exact (extractName_fields page).2.2.1
        · right; left; exact h2
      · right; right; exact h1

/-- Witness for C10 at a concrete page: a valid name and one address
button. -/
theorem c10_extract_shape_witness :
    (⟨str ("Acme Cafe"), str ("1 Main St"), NA, NA, NA⟩ : Business).emails = NA ∧
    (⟨str ("Acme Cafe"), str ("1 Main St"), NA, NA, NA⟩ : Business).name ≠ [] ∧
    Py.lower (⟨str ("Acme Cafe"), str ("1 Main St"), NA, NA, NA⟩ : Business).name ∉
      [str ("results"), str ("overview"), str ("about"), str ("reviews")] ∧
    ((⟨str ("Acme Cafe"), str ("1 Main St"), NA, NA, NA⟩ : Business).address = NA ∨
      (⟨str ("Acme Cafe"), str ("1 Main St"), NA, NA, NA⟩ : Business).address ∈
        buttonAddressVals ⟨some (str ("Acme Cafe")), [some (str ("Address: 1 Main St"))], [], [], []⟩ ∨
      addressFromFallback
          (⟨some (str ("Acme Cafe")), [some (str ("Address: 1 Main St"))], [], [], []⟩ : PageModel).addressFallbackArias =
        some (⟨str ("Acme Cafe"), str ("1 Main St"), NA, NA, NA⟩ : Business).address) ∧
    ((⟨str ("Acme Cafe"), str ("1 Main St"), NA, NA, NA⟩ : Business).phone = NA ∨
      (⟨str ("Acme Cafe"), str ("1 Main St"), NA, NA, NA⟩ : Business).phone ∈
        buttonPhoneVals ⟨some (str ("Acme Cafe")), [some (str ("Address: 1 Main St"))], [], [], []⟩ ∨
      phoneFromFallback
          (⟨some (str ("Acme Cafe")), [some (str ("Address: 1 Main St"))], [], [], []⟩ : PageModel).phoneFallbackTexts =
        some (⟨str ("Acme Cafe"), str ("1 Main St"), NA, NA, NA⟩ : Business).phone) ∧
    ((⟨str ("Acme Cafe"), str ("1 Main St"), NA, NA, NA⟩ : Business).website = NA ∨
      (⟨str ("Acme Cafe"), str ("1 Main St"), NA, NA, NA⟩ : Business).website ∈
        buttonWebsiteVals ⟨some (str ("Acme Cafe")), [some (str ("Address: 1 Main St"))], [], [], []⟩ ∨
      websiteFromFallback
          (⟨some (str ("Acme Cafe")), [some (str ("Address: 1 Main St"))], [], [], []⟩ : PageModel).websiteFallbacks =
        some (⟨str ("Acme Cafe"), str ("1 Main St"), NA, NA, NA⟩ : Business).website) :=
  c10_extract_shape
    ⟨some (str ("Acme Cafe")), [some (str ("Address: 1 Main St"))], [], [], []⟩
    ⟨str ("Acme Cafe"), str ("1 Main St"), NA, NA, NA⟩ (by decide)

/-! ## Claim C1: deduplication refines the first-occurrence contract -/

/-- The stored key of an updated `seen` entry is unchanged. -/
theorem dedupStep_upd_fst (k : Str × Str) (em : Str) (p : (Str × Str) × Business) :
    (if p.1 = k then (p.1, { p.2 with emails := mergeEmailsField p.2.emails em }) else p).1 =
      p.1 := by
  split_ifs <;> rfl

/-- Decomposition of the dedup fold: entries already in `seen` accumulate
the emails of their later same-key records, and the records with fresh
keys behave as a fresh deduplication. -/
theorem dedup_fold_decompose (bs : List Business) :
    ∀ acc : List ((Str × Str) × Business),
      (List.foldl dedupStep acc bs).map Prod.snd =
        acc.map (fun p =>
          mergeEmailsInto p.2 (bs.filter (fun x => decide (dedupKey x = p.1)))) ++
        dedupeFirstOccSpec
          (bs.filter (fun x => !(acc.any (fun q => decide (q.1 = dedupKey x))))) := by
  induction bs with
  | nil =>
    intro acc
    rw [show dedupeFirstOccSpec
        (List.filter (fun x => !(acc.any (fun q => decide (q.1 = dedupKey x)))) []) = []
      from by simp [dedupeFirstOccSpec]]
    rw [List.append_nil]
    rfl
  | cons x rest ih =>
    intro acc
    rw [List.foldl_cons, ih (dedupStep acc x)]
    by_cases hmem : acc.any (fun q => decide (q.1 = dedupKey x)) = true
    · -- the key of x is already stored: x merges into its entry
      have hstep : dedupStep acc x =
          acc.map (fun p =>
            if p.1 = dedupKey x then
              (p.1, { p.2 with emails := mergeEmailsField p.2.emails x.emails })
            else p) := by
        simp only [dedupStep]
        rw [if_pos hmem]
      rw [hstep]
      have hanyeq : ∀ y : Business,
          ((acc.map (fun p =>
            if p.1 = dedupKey x then
              (p.1, { p.2 with emails := mergeEmailsField p.2.emails x.emails })
            else p)).any (fun q => decide (q.1 = dedupKey y))) =
          (acc.any (fun q => decide (q.1 = dedupKey y))) := by
        intro y
        rw [List.any_map]
        congr 1
        funext p
        simp only [Function.comp_apply, dedupStep_upd_fst]
      congr 1
      · -- the per-entry canonical records agree
        rw [List.map_map]
        apply List.map_congr_left
        intro p _
        simp only [Function.comp_apply]
        by_cases hpk : p.1 = dedupKey x
        · rw [if_pos hpk]
          rw [List.filter_cons_of_pos (by simp [hpk.symm])]
          simp only [mergeEmailsInto, List.map_cons, List.foldl_cons]
        · rw [if_neg hpk]
          rw [List.filter_cons_of_neg (by simp; intro hcontra; exact hpk hcontra.symm)]
      · -- the fresh-key tails agree: x is dropped from the spec side
        have hfilter :
            rest.filter (fun y =>
              !((acc.map (fun p =>
                if p.1 = dedupKey x then
                  (p.1, { p.2 with emails := mergeEmailsField p.2.emails x.emails })
                else p)).any (fun q => decide (q.1 = dedupKey y)))) =
            rest.filter (fun y => !(acc.any (fun q => decide (q.1 = dedupKey y)))) := by
          apply List.filter_congr
          intro y _
          rw [hanyeq y]
        rw [hfilter]
        congr 1
        rw [List.filter_cons_of_neg (by simp [hmem])]
    · -- a fresh key: x starts a new entry at the end of `seen`
      have hstep : dedupStep acc x = acc ++ [(dedupKey x, x)] := by
        simp only [dedupStep]
        rw [if_neg hmem]
      have hmemf : acc.any (fun q => decide (q.1 = dedupKey x)) = false :=
        Bool.not_eq_true _ ▸ hmem
      have hnotin : ∀ q ∈ acc, ¬ q.1 = dedupKey x := by
        intro q hq hcontra
        exact hmem (List.any_eq_true.mpr ⟨q, hq, by simp [hcontra]⟩)
      rw [hstep]
      rw [List.map_append]
      -- the spec side keeps x in front
      rw [show (x :: rest).filter (fun y => !(acc.any (fun q => decide (q.1 = dedupKey y)))) =
            x :: rest.filter (fun y => !(acc.any (fun q => decide (q.1 = dedupKey y)))) from
        List.filter_cons_of_pos (by simp [hmemf])]
      rw [show dedupeFirstOccSpec
            (x :: rest.filter (fun y => !(acc.any (fun q => decide (q.1 = dedupKey y))))) =
          mergeEmailsInto x
            ((rest.filter (fun y => !(acc.any (fun q => decide (q.1 = dedupKey y))))).filter
              (fun y => decide (dedupKey y = dedupKey x))) ::
          dedupeFirstOccSpec
            ((rest.filter (fun y => !(acc.any (fun q => decide (q.1 = dedupKey y))))).filter
              (fun y => decide (dedupKey y ≠ dedupKey x)))
        from by rw [dedupeFirstOccSpec]]
      -- head of the appended singleton
      have hhead :
          (rest.filter (fun y => !(acc.any (fun q => decide (q.1 = dedupKey y))))).filter
              (fun y => decide (dedupKey y = dedupKey x)) =
            rest.filter (fun y => decide (dedupKey y = dedupKey x)) := by
        rw [List.filter_filter]
        apply List.filter_congr
        intro y _
        by_cases hk : dedupKey y = dedupKey x
        · have hany : acc.any (fun q => decide (q.1 = dedupKey y)) = false := by
            rw [hk]; exact hmemf
          rw [hany]
          simp [hk]
        · simp [hk]
      -- tail filters agree
      have htail :
          (rest.filter (fun y => !(acc.any (fun q => decide (q.1 = dedupKey y))))).filter
              (fun y => decide (dedupKey y ≠ dedupKey x)) =
            rest.filter
              (fun y => !((acc ++ [(dedupKey x, x)]).any (fun q => decide (q.1 = dedupKey y)))) := by
        rw [List.filter_filter]
        apply List.filter_congr
        intro y _
        rw [List.any_append]
        by_cases hk : dedupKey y = dedupKey x
        · simp [hk]
        · have h2 : decide ((dedupKey x, x).1 = dedupKey y) = false := by
            simp
            intro hcontra
            exact hk hcontra.symm
          simp only [List.any_cons, List.any_nil, h2, Bool.or_false, hk]
          simp [hk]
      -- acc entries never match the key of x
      have haccmap :
          acc.map (fun p =>
            mergeEmailsInto p.2 (rest.filter (fun y => decide (dedupKey y = p.1)))) =
          acc.map (fun p =>
            mergeEmailsInto p.2 ((x :: rest).filter (fun y => decide (dedupKey y = p.1)))) := by
        apply List.map_congr_left
        intro p hp
        rw [List.filter_cons_of_neg (by simp; intro hcontra; exact hnotin p hp hcontra.symm)]
      rw [haccmap, hhead, htail]
      simp only [List.map_cons, List.map_nil]
      rw [List.append_assoc, List.singleton_append]

/-- Claim C1: deduplication is exactly the first-occurrence contract: the
output lists one canonical record per composite key in first-occurrence
order; each canonical record is the first record with its key, none of its
non-email fields overwritten; later records of the same key contribute
only their emails, unioned, sorted and comma-joined (sentinel when the
merge has nothing). -/
theorem c1_dedupe_refines_first_occurrence (businesses : List Business) :
    deduplicate_businesses businesses = dedupeFirstOccSpec businesses := by
  have h := dedup_fold_decompose businesses []
  simp only [List.map_nil, List.nil_append, List.any_nil, Bool.not_false,
    List.filter_true] at h
  simpa [deduplicate_businesses] using h

/-! ## Claim C2: pagination stability stop -/

/-- No comparison exists over an empty reading list. -/
theorem unchangedFrom_nil (prev t : Nat) : ¬ unchangedFrom prev [] t := by
  simp [unchangedFrom]

/-- The first comparison checks the first reading against the carried-in
previous height. -/
theorem unchangedFrom_one (prev h : Nat) (rest : List Nat) :
    unchangedFrom prev (h :: rest) 1 ↔ h = prev := by
  simp [unchangedFrom]

/-- Comparisons after the first are comparisons of the tail run. -/
theorem unchangedFrom_succ (prev h : Nat) (rest : List Nat) (t : Nat) (ht : 1 ≤ t) :
    unchangedFrom prev (h :: rest) (t + 1) ↔ unchangedFrom h rest t := by
  unfold unchangedFrom
  obtain ⟨u, rfl⟩ : ∃ u, t = u + 1 := ⟨t - 1, by omega⟩
  simp only [Nat.add_sub_cancel, List.getElem?_cons_succ]
  constructor
  · rintro ⟨_, hne, heq⟩
    exact ⟨by omega, hne, heq⟩
  · rintro ⟨_, hne, heq⟩
    exact ⟨by omega, hne, heq⟩

/-- The break can never fire on an empty reading list. -/
theorem fireAt_nil (prev ncc t : Nat) (ht : 1 ≤ t) : ¬ fireAt prev ncc [] t := by
  unfold fireAt
  rintro (⟨h3, hu, _⟩ | ⟨h3, hc, hall⟩)
  · exact unchangedFrom_nil prev t hu
  · exact unchangedFrom_nil prev 1 (hall 1 (by omega) (by omega))

/-- Firing at the very first reading needs an unchanged comparison and a
carried-in counter of at least 2. -/
theorem fireAt_one_unchanged (prev ncc h : Nat) (rest : List Nat) (hh : h = prev) :
    fireAt prev ncc (h :: rest) 1 ↔ 3 ≤ ncc + 1 := by
  unfold fireAt
  constructor
  · rintro (⟨h3, _⟩ | ⟨_, h3, _⟩)
    · omega
    · omega
  · intro h3
    right
    refine ⟨by omega, by omega, ?_⟩
    intro i h1 h2
    have hi : i = 1 := by omega
    subst hi
    exact (unchangedFrom_one prev h rest).mpr hh

/-- The break cannot fire at the first reading when the height changed. -/
theorem fireAt_one_changed (prev ncc h : Nat) (rest : List Nat) (hh : ¬ h = prev) :
    ¬ fireAt prev ncc (h :: rest) 1 := by
  unfold fireAt
  rintro (⟨h3, _⟩ | ⟨_, _, hall⟩)
  · omega
  · exact hh ((unchangedFrom_one prev h rest).mp (hall 1 (by omega) (by omega)))

/-- Shifting the fire condition across an unchanged first reading: the
counter carries over incremented. -/
theorem fireAt_succ_unchanged (prev ncc h : Nat) (rest : List Nat) (t : Nat)
    (hh : h = prev) (ht : 1 ≤ t) :
    fireAt prev ncc (h :: rest) (t + 1) ↔ fireAt h (ncc + 1) rest t := by
  have hU1 : unchangedFrom prev (h :: rest) 1 := (unchangedFrom_one prev h rest).mpr hh
  have hUs : ∀ i, 1 ≤ i → (unchangedFrom prev (h :: rest) (i + 1) ↔ unchangedFrom h rest i) :=
    fun i hi => unchangedFrom_succ prev h rest i hi
  unfold fireAt
  constructor
  · rintro (⟨h3, hu1, hu2, hu3⟩ | ⟨h3, hcnt, hall⟩)
    · rcases Nat.lt_or_ge t 3 with ht3 | ht3
      · have ht2 : t = 2 := by omega
        subst ht2
        right
        refine ⟨by omega, by omega, ?_⟩
        intro i h1 h2
        interval_cases i
        · exact (hUs 1 (by omega)).mp (by simpa using hu2)
        · exact (hUs 2 (by omega)).mp (by simpa using hu1)
      · left
        refine ⟨ht3, ?_, ?_, ?_⟩
        · exact (hUs t ht).mp (by simpa using hu1)
        · exact (hUs (t - 1) (by omega)).mp
            (by rw [show t - 1 + 1 = t + 1 - 1 by omega]; exact hu2)
        · exact (hUs (t - 2) (by omega)).mp
            (by rw [show t - 2 + 1 = t + 1 - 2 by omega]; exact hu3)
    · have ht1 : t = 1 := by omega
      subst ht1
      right
      refine ⟨by omega, by omega, ?_⟩
      intro i h1 h2
      have hi : i = 1 := by omega
      subst hi
      exact (hUs 1 (by omega)).mp (hall 2 (by omega) (by omega))
  · rintro (⟨h3, hu1, hu2, hu3⟩ | ⟨h3, hcnt, hall⟩)
    · left
      refine ⟨by omega, ?_, ?_, ?_⟩
      · exact (hUs t (by omega)).mpr hu1
      · rw [show t + 1 - 1 = (t - 1) + 1 by omega]
        exact (hUs (t - 1) (by omega)).mpr hu2
      · rw [show t + 1 - 2 = (t - 2) + 1 by omega]
        exact (hUs (t - 2) (by omega)).mpr hu3
    · rcases (show t = 1 ∨ t = 2 by omega) with rfl | rfl
      · right
        refine ⟨by omega, by omega, ?_⟩
        intro i h1 h2
        interval_cases i
        · exact hU1
        · exact (hUs 1 (by omega)).mpr (hall 1 (by omega) (by omega))
      · left
        refine ⟨by omega, ?_, ?_, ?_⟩
        · exact (hUs 2 (by omega)).mpr (hall 2 (by omega) (by omega))
        · exact (hUs 1 (by omega)).mpr (hall 1 (by omega) (by omega))
        · exact hU1
  
/-- Shifting the fire condition across a changed first reading: the
counter resets to zero. -/
theorem fireAt_succ_changed (prev ncc h : Nat) (rest : List Nat) (t : Nat)
    (hh : ¬ h = prev) (ht : 1 ≤ t) :
    fireAt prev ncc (h :: rest) (t + 1) ↔ fireAt h 0 rest t := by
  have hU1 : ¬ unchangedFrom prev (h :: rest) 1 := by
    rw [unchangedFrom_one]
    exact hh
  have hUs : ∀ i, 1 ≤ i → (unchangedFrom prev (h :: rest) (i + 1) ↔ unchangedFrom h rest i) :=
    fun i hi => unchangedFrom_succ prev h rest i hi
  unfold fireAt
  constructor
  · rintro (⟨h3, hu1, hu2, hu3⟩ | ⟨h3, hcnt, hall⟩)
    · rcases Nat.lt_or_ge t 3 with ht3 | ht3
      · have ht2 : t = 2 := by omega
        subst ht2
        exact absurd (by simpa using hu3) hU1
      · left
        refine ⟨ht3, ?_, ?_, ?_⟩
        · exact (hUs t ht).mp (by simpa using hu1)
        · exact (hUs (t - 1) (by omega)).mp
            (by rw [show t - 1 + 1 = t + 1 - 1 by omega]; exact hu2)
        · exact (hUs (t - 2) (by omega)).mp
            (by rw [show t - 2 + 1 = t + 1 - 2 by omega]; exact hu3)
    · exact absurd (hall 1 (by omega) (by omega)) hU1
  · rintro (⟨h3, hu1, hu2, hu3⟩ | ⟨h3, hcnt, hall⟩)
    · left
      refine ⟨by omega, ?_, ?_, ?_⟩
      · exact (hUs t (by omega)).mpr hu1
      · rw [show t + 1 - 1 = (t - 1) + 1 by omega]
        exact (hUs (t - 1) (by omega)).mpr hu2
      · rw [show t + 1 - 2 = (t - 2) + 1 by omega]
        exact (hUs (t - 2) (by omega)).mpr hu3
    · omega

/-- Characterization of the stability break: `scrollAux` stops after `t`
more readings exactly when `t` is the first step at which the fire
condition holds, within the remaining fuel. -/
theorem scrollAux_some_iff :
    ∀ (hs : List Nat) (fuel prev ncc done j : Nat), ncc < 3 →
      (scrollAux fuel hs prev ncc done = some j ↔
        ∃ t, 1 ≤ t ∧ t ≤ fuel ∧ j = done + t ∧ fireAt prev ncc hs t ∧
          ∀ i, 1 ≤ i → i < t → ¬ fireAt prev ncc hs i) := by
  intro hs
  induction hs with
  | nil =>
    intro fuel prev ncc done j hncc
    constructor
    · intro h
      exact absurd h (by cases fuel <;> simp [scrollAux])
    · rintro ⟨t, ht1, _, _, hfire, _⟩
      exact absurd hfire (fireAt_nil prev ncc t ht1)
  | cons h rest ih =>
    intro fuel prev ncc done j hncc
    cases fuel with
    | zero =>
      constructor
      · intro hcontra
        exact absurd hcontra (by simp [scrollAux])
      · rintro ⟨t, ht1, htf, _⟩
        omega
    | succ f =>
      by_cases hh : h = prev
      · by_cases h3 : 3 ≤ ncc + 1
        · have hrun : scrollAux (f + 1) (h :: rest) prev ncc done = some (done + 1) := by
            rw [scrollAux, if_pos hh, if_pos h3]
          rw [hrun]
          constructor
          · intro he
            have hj : j = done + 1 := by
              have := Option.some.inj he
              omega
            refine ⟨1, by omega, by omega, hj, ?_, ?_⟩
            · exact (fireAt_one_unchanged prev ncc h rest hh).mpr h3
            · intro i h1 h2
              omega
          · rintro ⟨t, ht1, htf, hj, hfire, hmin⟩
            have hf1 : fireAt prev ncc (h :: rest) 1 :=
              (fireAt_one_unchanged prev ncc h rest hh).mpr h3
            have ht : t = 1 := by
              by_contra hne
              exact hmin 1 (by omega) (by omega) hf1
            subst ht
            rw [hj]
        · have hrun : scrollAux (f + 1) (h :: rest) prev ncc done =
              scrollAux f rest h (ncc + 1) (done + 1) := by
            rw [scrollAux, if_pos hh, if_neg h3]
          rw [hrun, ih f h (ncc + 1) (done + 1) j (by omega)]
          have hnot1 : ¬ fireAt prev ncc (h :: rest) 1 := by
            rw [fireAt_one_unchanged prev ncc h rest hh]
            exact h3
          constructor
          · rintro ⟨t, ht1, htf, hj, hfire, hmin⟩
            refine ⟨t + 1, by omega, by omega, by omega, ?_, ?_⟩
            · exact (fireAt_succ_unchanged prev ncc h rest t hh ht1).mpr hfire
            · intro i h1 hi
              rcases (show i = 1 ∨ 2 ≤ i by omega) with rfl | h2
              · exact hnot1
              · obtain ⟨i2, rfl⟩ : ∃ i2, i = i2 + 1 := ⟨i - 1, by omega⟩
                intro hcontra
                exact hmin i2 (by omega) (by omega)
                  ((fireAt_succ_unchanged prev ncc h rest i2 hh (by omega)).mp hcontra)
          · rintro ⟨t, ht1, htf, hj, hfire, hmin⟩
            have ht2 : 2 ≤ t := by
              by_contra hlt
              have ht1e : t = 1 := by omega
              subst ht1e
              exact hnot1 hfire
            obtain ⟨t2, rfl⟩ : ∃ t2, t = t2 + 1 := ⟨t - 1, by omega⟩
            refine ⟨t2, by omega, by omega, by omega, ?_, ?_⟩
            · exact (fireAt_succ_unchanged prev ncc h rest t2 hh (by omega)).mp hfire
            · intro i h1 hi
              intro hcontra
              exact hmin (i + 1) (by omega) (by omega)
                ((fireAt_succ_unchanged prev ncc h rest i hh h1).mpr hcontra)
      · have hrun : scrollAux (f + 1) (h :: rest) prev ncc done =
            scrollAux f rest h 0 (done + 1) := by
          rw [scrollAux, if_neg hh]
        rw [hrun, ih f h 0 (done + 1) j (by omega)]
        have hnot1 : ¬ fireAt prev ncc (h :: rest) 1 :=
          fireAt_one_changed prev ncc h rest hh
        constructor
        · rintro ⟨t, ht1, htf, hj, hfire, hmin⟩
          refine ⟨t + 1, by omega, by omega, by omega, ?_, ?_⟩
          · exact (fireAt_succ_changed prev ncc h rest t hh ht1).mpr hfire
          · intro i h1 hi
            rcases (show i = 1 ∨ 2 ≤ i by omega) with rfl | h2
            · exact hnot1
            · obtain ⟨i2, rfl⟩ : ∃ i2, i = i2 + 1 := ⟨i - 1, by omega⟩
              intro hcontra
              exact hmin i2 (by omega) (by omega)
                ((fireAt_succ_changed prev ncc h rest i2 hh (by omega)).mp hcontra)
        · rintro ⟨t, ht1, htf, hj, hfire, hmin⟩
          have ht2 : 2 ≤ t := by
            by_contra hlt
            have ht1e : t = 1 := by omega
            subst ht1e
            exact hnot1 hfire
          obtain ⟨t2, rfl⟩ : ∃ t2, t = t2 + 1 := ⟨t - 1, by omega⟩
          refine ⟨t2, by omega, by omega, by omega, ?_, ?_⟩
          · exact (fireAt_succ_changed prev ncc h rest t2 hh (by omega)).mp hfire
          · intro i h1 hi
            intro hcontra
            exact hmin (i + 1) (by omega) (by omega)
              ((fireAt_succ_changed prev ncc h rest i hh h1).mpr hcontra)

/-- From the initial state (previous height 0, counter 0) the fire
condition is exactly the third consecutive unchanged reading. -/
theorem fireAt_zero_iff (hs : List Nat) (t : Nat) :
    fireAt 0 0 hs t ↔ thirdUnchangedAt hs t := by
  unfold fireAt thirdUnchangedAt unchangedAt
  constructor
  · rintro (⟨h3, hu1, hu2, hu3⟩ | ⟨h3, hc, _⟩)
    · exact ⟨h3, hu1, hu2, hu3⟩
    · omega
  · rintro ⟨h3, hu1, hu2, hu3⟩
    exact Or.inl ⟨h3, hu1, hu2, hu3⟩

/-- The loop stops with result `j` exactly when reading `j` is the first
third-consecutive-unchanged reading, within the 100-iteration cap. -/
theorem scroll_results_panel_some_iff (heights : List Nat) (j : Nat) :
    scroll_results_panel heights = some j ↔
      (j ≤ 100 ∧ thirdUnchangedAt heights j ∧
        ∀ i, i < j → ¬ thirdUnchangedAt heights i) := by
  unfold scroll_results_panel
  rw [scrollAux_some_iff heights 100 0 0 0 j (by omega)]
  constructor
  · rintro ⟨t, ht1, htf, hj, hfire, hmin⟩
    have hjt : j = t := by omega
    subst hjt
    refine ⟨htf, (fireAt_zero_iff heights j).mp hfire, ?_⟩
    intro i hi hthird
    rcases (show i = 0 ∨ 1 ≤ i by omega) with rfl | h1
    · unfold thirdUnchangedAt at hthird
      omega
    · exact hmin i h1 hi ((fireAt_zero_iff heights i).mpr hthird)
  · rintro ⟨hj100, hthird, hmin⟩
    have h3 : 3 ≤ j := by
      unfold thirdUnchangedAt at hthird
      omega
    refine ⟨j, by omega, hj100, by omega, (fireAt_zero_iff heights j).mpr hthird, ?_⟩
    intro i h1 hi hcontra
    exact hmin i hi ((fireAt_zero_iff heights i).mp hcontra)

/-- A run that never stopped saw no third-consecutive-unchanged reading
within the cap. -/
theorem scroll_none_no_third (heights : List Nat)
    (hnone : scroll_results_panel heights = none) :
    ∀ t, t ≤ 100 → ¬ thirdUnchangedAt heights t := by
  intro t ht100 hthird
  have hex : ∃ u, thirdUnchangedAt heights u := ⟨t, hthird⟩
  have hfind := Nat.find_spec hex
  have hle : Nat.find hex ≤ t := Nat.find_min' hex hthird
  have hsome := (scroll_results_panel_some_iff heights (Nat.find hex)).mpr
    ⟨by omega, hfind, fun i hi => Nat.find_min hex hi⟩
  rw [hnone] at hsome
  exact Option.noConfusion hsome

/-- Comparisons inside the prefix of an appended reading list are
comparisons of the prefix run. -/
theorem unchangedAt_append_left (xs ys : List Nat) (t : Nat) (ht : t ≤ xs.length) :
    unchangedAt (xs ++ ys) t ↔ unchangedAt xs t := by
  rcases Nat.eq_zero_or_pos t with rfl | hpos
  · simp [unchangedAt, unchangedFrom]
  · unfold unchangedAt unchangedFrom
    have h1 : (xs ++ ys)[t - 1]? = xs[t - 1]? :=
      List.getElem?_append_left (by omega)
    have h2 : ((0 :: xs) ++ ys)[t - 1]? = (0 :: xs)[t - 1]? :=
      List.getElem?_append_left (by simp; omega)
    rw [show (0 : Nat) :: (xs ++ ys) = (0 :: xs) ++ ys from rfl, h1, h2]

/-- A comparison beyond the readings never holds. -/
theorem unchangedAt_out_of_range (hs : List Nat) (t : Nat) (ht : hs.length < t) :
    ¬ unchangedAt hs t := by
  unfold unchangedAt unchangedFrom
  rintro ⟨h1, hne, _⟩
  exact hne (List.getElem?_eq_none (by omega))

/-- The comparison right after the prefix checks the first appended
reading against the last reading of the prefixed run. -/
theorem unchangedAt_break (xs : List Nat) (b : Nat) (ys : List Nat) :
    unchangedAt (xs ++ b :: ys) (xs.length + 1) ↔ (0 :: xs)[xs.length]? = some b := by
  unfold unchangedAt unchangedFrom
  have h1 : (xs ++ b :: ys)[xs.length + 1 - 1]? = some b := by
    rw [show xs.length + 1 - 1 = xs.length by omega]
    rw [List.getElem?_append_right (by omega)]
    simp
  have h2 : ((0 : Nat) :: (xs ++ b :: ys))[xs.length + 1 - 1]? = (0 :: xs)[xs.length]? := by
    rw [show (0 : Nat) :: (xs ++ b :: ys) = (0 :: xs) ++ b :: ys from rfl]
    rw [show xs.length + 1 - 1 = xs.length by omega]
    exact List.getElem?_append_left (by simp)
  rw [h1, h2]
  constructor
  · rintro ⟨_, _, heq⟩
    exact heq.symm
  · intro heq
    exact ⟨by omega, by simp, heq.symm⟩

/-- Claim C2 (amended): absent the end-of-list sentinel and the global
deadline, the loop stops exactly at the first reading that is the third
consecutive unchanged one — a reading equal to its predecessor for the
third time in a row, the predecessor of the first reading being the
initial height 0, so four equal consecutive values in general — within
the 100-iteration safety cap; and an interior fluctuation (a change to a
new height, even followed by two repeats of it) resets the stability
counter to zero and does not trigger an early stop. -/
theorem c2_amended_stability_stop :
    (∀ heights j, scroll_results_panel heights = some j ↔
      (j ≤ 100 ∧ thirdUnchangedAt heights j ∧
        ∀ i, i < j → ¬ thirdUnchangedAt heights i)) ∧
    (∀ xs b, scroll_results_panel xs = none → (0 :: xs)[xs.length]? ≠ some b →
      xs.length + 3 ≤ 100 → scroll_results_panel (xs ++ [b, b, b]) = none) := by
  constructor
  · exact scroll_results_panel_some_iff
  · intro xs b hnone hlast hlen
    cases hs : scroll_results_panel (xs ++ [b, b, b]) with
    | none => rfl
    | some j =>
      exfalso
      obtain ⟨hj100, hthird, hmin⟩ := (scroll_results_panel_some_iff _ j).mp hs
      have hnotU : ¬ unchangedAt (xs ++ [b, b, b]) (xs.length + 1) := by
        rw [show xs ++ [b, b, b] = xs ++ b :: [b, b] from rfl]
        rw [unchangedAt_break xs b [b, b]]
        exact hlast
      unfold thirdUnchangedAt at hthird
      obtain ⟨h3, hu1, hu2, hu3⟩ := hthird
      have hlenext : (xs ++ [b, b, b]).length = xs.length + 3 := by simp
      rcases (show j ≤ xs.length ∨ j = xs.length + 1 ∨ j = xs.length + 2 ∨
          j = xs.length + 3 ∨ xs.length + 4 ≤ j by omega)
        with hcase | hcase | hcase | hcase | hcase
      · have hxs : thirdUnchangedAt xs j := by
          unfold thirdUnchangedAt
          exact ⟨h3, (unchangedAt_append_left xs _ j (by omega)).mp hu1,
            (unchangedAt_append_left xs _ (j - 1) (by omega)).mp hu2,
            (unchangedAt_append_left xs _ (j - 2) (by omega)).mp hu3⟩
        exact scroll_none_no_third xs hnone j (by omega) hxs
      · subst hcase
        exact hnotU hu1
      · exact hnotU (by rw [show xs.length + 1 = j - 1 by omega]; exact hu2)
      · exact hnotU (by rw [show xs.length + 1 = j - 2 by omega]; exact hu3)
      · exact unchangedAt_out_of_range _ j (by omega) hu1

/-- Witness for the amended C2: four equal readings stop at the fourth,
and a fluctuation after a stable-but-unfinished prefix does not stop. -/
theorem c2_amended_stability_stop_witness :
    scroll_results_panel [7, 7, 7, 7] = some 4 ∧
    scroll_results_panel ([2, 2, 2] ++ [9, 9, 9]) = none :=
  ⟨(c2_amended_stability_stop.1 [7, 7, 7, 7] 4).mpr
      ⟨by omega, by decide, by decide⟩,
   c2_amended_stability_stop.2 [2, 2, 2] 9 (by decide) (by decide) (by decide)⟩

/-- Counterexample to C2 as stated: `[5, 5, 5]` holds three consecutive
equal height readings, yet the loop never stops on that sequence, and on
`[5, 5, 5, 5]` it stops only after the fourth reading, not the third. -/
theorem c2_three_equal_readings_do_not_stop :
    threeEqualReadings [5, 5, 5] ∧ scroll_results_panel [5, 5, 5] = none ∧
    scroll_results_panel [5, 5, 5, 5] = some 4 :=
  ⟨⟨0, 5, by decide, by decide, by decide⟩, by decide, by decide⟩

/-! ## Claim C4: blocked platform domains skip the email harvest -/

/-- Unfolding of the replace-all scan on a cons cell. -/
theorem removeAll_cons (pat : Str) (c : Char) (cs : Str) :
    Py.removeAll pat (c :: cs) =
      if pat.isPrefixOf (c :: cs) then Py.removeAll pat (cs.drop (pat.length - 1))
      else c :: Py.removeAll pat cs := by
  simp only [Py.removeAll]

/-- Python substring containment is list infix containment. -/
theorem containsSub_iff_isInfix (s p : Str) : Py.containsSub s p = true ↔ p <:+: s := by
  induction s with
  | nil =>
    simp only [Py.containsSub, List.isEmpty_iff]
    constructor
    · rintro rfl
      exact List.nil_infix
    · intro h
      obtain ⟨s, t, hst⟩ := h
      exact (List.append_eq_nil.mp (List.append_eq_nil.mp hst).1).2
  | cons c rest ih =>
    simp only [Py.containsSub]
    rw [Bool.or_eq_true, ih, List.isPrefixOf_iff_prefix]
    exact (List.infix_cons_iff).symm

/-- Removing `www.` occurrences from a string that starts with a suffix of
a blocked domain leaves that suffix in place: the domain does not contain
`www.` and does not end in `w`, so no occurrence can start inside it. -/
theorem removeAll_www_append (B : Str)
    (hNoWww : ¬ (str ("www.")) <:+: B)
    (hlast : B.getLast? ≠ some 'w') :
    ∀ (B2 v : Str), B2 <:+ B →
      Py.removeAll (str ("www.")) (B2 ++ v) = B2 ++ Py.removeAll (str ("www.")) v := by
  intro B2
  induction B2 with
  | nil =>
    intro v _
    simp
  | cons c rest ih =>
    intro v hsuf
    have hlastB2 : (c :: rest).getLast? = B.getLast? := by
      obtain ⟨u, hu⟩ := hsuf
      rw [← hu, List.getLast?_append]
      cases hx : (c :: rest).getLast? with
      | none => exact absurd hx (by simp)
      | some y => rfl
    have hguard : ¬ (str ("www.")).isPrefixOf ((c :: rest) ++ v) = true := by
      intro hpre
      rw [ List.isPrefixOf_iff_prefix] at hpre
      rcases Nat.lt_or_ge (c :: rest).length 4 with hlen | hlen
      · have hp1 : (c :: rest) <+: (c :: rest) ++ v := List.prefix_append _ _
        rcases List.prefix_or_prefix_of_prefix hpre hp1 with hcmp | hcmp
        · have hle := hcmp.length_le
          rw [show (str ("www.")).length = 4 from by decide] at hle
          omega
        · have htake := List.prefix_iff_eq_take.mp hcmp
          have h1 : (c :: rest).length = 1 ∨ (c :: rest).length = 2 ∨
              (c :: rest).length = 3 := by
            have : 1 ≤ (c :: rest).length := by simp
            omega
          have hw : (c :: rest).getLast? = some 'w' := by
            rcases h1 with h1 | h1 | h1 <;> (rw [htake, h1]; decide)
          rw [hlastB2] at hw
          exact hlast hw
      · have htake := List.prefix_iff_eq_take.mp hpre
        rw [List.take_append_of_le_length
          (by rw [show (str ("www.")).length = 4 from by decide]; omega)] at htake
        have hpB2 : (str ("www.")) <+: (c :: rest) := by
          rw [htake]
          exact List.take_prefix _ _
        exact hNoWww (hpB2.isInfix.trans hsuf.isInfix)
    rw [show (c :: rest) ++ v = c :: (rest ++ v) from rfl]
    rw [removeAll_cons]
    rw [if_neg (by rw [show (c :: (rest ++ v)) = (c :: rest) ++ v from rfl]; exact hguard)]
    rw [ih v ((List.suffix_cons c rest).trans hsuf)]
    rfl

/-- A blocked-domain occurrence survives the removal of every `www.`: no
occurrence of `www.` can overlap it from either side. -/
theorem removeAll_www_keeps_infix (B : Str)
    (hhw : B.head? ≠ some 'w') (hhd : B.head? ≠ some '.')
    (hNoWww : ¬ (str ("www.")) <:+: B)
    (hlast : B.getLast? ≠ some 'w') :
    ∀ d : Str, B <:+: d → B <:+: Py.removeAll (str ("www.")) d := by
  by_cases hBnil : B = []
  · intro d _
    rw [hBnil]
    exact List.nil_infix
  have hmain : ∀ (n : Nat) (u v : Str), u.length ≤ n →
      B <:+: Py.removeAll (str ("www.")) (u ++ (B ++ v)) := by
    intro n
    induction n with
    | zero =>
      intro u v hu
      have hu0 : u = [] := List.length_eq_zero.mp (by omega)
      subst hu0
      rw [List.nil_append, removeAll_www_append B hNoWww hlast B v (List.suffix_refl B)]
      exact ⟨[], Py.removeAll (str ("www.")) v, by simp⟩
    | succ m ih =>
      intro u v hu
      cases u with
      | nil =>
        rw [List.nil_append, removeAll_www_append B hNoWww hlast B v (List.suffix_refl B)]
        exact ⟨[], Py.removeAll (str ("www.")) v, by simp⟩
      | cons c u2 =>
        rw [show (c :: u2) ++ (B ++ v) = c :: (u2 ++ (B ++ v)) from rfl]
        by_cases hg : (str ("www.")).isPrefixOf (c :: (u2 ++ (B ++ v))) = true
        · have hlen4 : 4 ≤ (c :: u2).length := by
            by_contra hlt
            push_neg at hlt
            rw [ List.isPrefixOf_iff_prefix] at hg
            have htake := List.prefix_iff_eq_take.mp hg
            -- the head of B sits at index (c :: u2).length of the pattern
            have hidx : ((c :: u2) ++ (B ++ v))[(c :: u2).length]? = B.head? := by
              rw [List.getElem?_append_right (le_refl _)]
              rw [Nat.sub_self]
              rw [List.getElem?_append_left (by
                cases B with
                | nil => exact absurd rfl hBnil
                | cons b bs => simp)]
              exact (List.head?_eq_getElem? B).symm
            have hidx2 : ((c :: u2) ++ (B ++ v))[(c :: u2).length]? =
                (str ("www."))[(c :: u2).length]? := by
              conv_rhs => rw [htake]
              rw [show (str ("www.")).length = 4 from by decide]
              rw [List.getElem?_take]
              rw [if_pos (by omega)]
              rfl
            have hBhead : B.head? = (str ("www."))[(c :: u2).length]? := by
              rw [← hidx, hidx2]
            have h1 : (c :: u2).length = 1 ∨ (c :: u2).length = 2 ∨
                (c :: u2).length = 3 := by
              have : 1 ≤ (c :: u2).length := by simp
              omega
            rcases h1 with h1 | h1 | h1 <;> rw [h1] at hBhead
            · exact hhw (by rw [hBhead]; decide)
            · exact hhw (by rw [hBhead]; decide)
            · exact hhd (by rw [hBhead]; decide)
          rw [removeAll_cons, if_pos hg]
          rw [show (str ("www.")).length - 1 = 3 from by decide]
          rw [List.drop_append_of_le_length (by simp only [List.length_cons] at hlen4; omega)]
          exact ih (u2.drop 3) v (by
            simp only [List.length_drop]
            simp only [List.length_cons] at hu
            omega)
        · rw [removeAll_cons, if_neg hg]
          exact List.infix_cons (ih u2 v (by
            simp only [List.length_cons] at hu
            omega))
  intro d hd
  obtain ⟨u, v, huv⟩ := hd
  rw [← huv, List.append_assoc]
  exact hmain u.length u v (le_refl _)

/-- Every blocked domain starts with neither `w` nor `.`, contains no
`www.`, and does not end in `w`: no `www.` occurrence can overlap it. -/
theorem skip_domains_no_www_overlap (b : Str) (hb : b ∈ SKIP_EMAIL_DOMAINS) :
    b.head? ≠ some 'w' ∧ b.head? ≠ some '.' ∧ ¬ (str ("www.")) <:+: b ∧
    b.getLast? ≠ some 'w' := by
  simp only [SKIP_EMAIL_DOMAINS] at hb
  fin_cases hb <;> exact ⟨by decide, by decide, by decide, by decide⟩

/-- Claim C4: a website whose host (lowercased, a leading `www.` stripped)
contains one of the blocked platform domains as a substring is skipped
entirely: the skip predicate holds, and the main-loop email step produces
the sentinel emails field for every conceivable harvester and
configuration — the harvest cannot contribute anything, so no page load
for the website matters. -/
theorem c4_blocked_domains_skip_harvest (website : Str)
    (h : ∃ b ∈ SKIP_EMAIL_DOMAINS,
      b <:+: stripLeadingWww (Py.lower (urlNetloc website))) :
    should_skip_email_extraction website = true ∧
    ∀ (skipEmails : Bool) (harvester : Str → List Str),
      mainEmailsField skipEmails website harvester = NA := by
  obtain ⟨b, hb, hinf⟩ := h
  have hsuffix : stripLeadingWww (Py.lower (urlNetloc website)) <:+
      Py.lower (urlNetloc website) := by
    unfold stripLeadingWww
    split_ifs
    · exact List.drop_suffix _ _
    · exact List.suffix_refl _
  have hinf2 : b <:+: Py.lower (urlNetloc website) := hinf.trans hsuffix.isInfix
  obtain ⟨hhw, hhd, hnw, hlw⟩ := skip_domains_no_www_overlap b hb
  have hkeep : b <:+: Py.removeAll (str ("www.")) (Py.lower (urlNetloc website)) :=
    removeAll_www_keeps_infix b hhw hhd hnw hlw _ hinf2
  have hskip : should_skip_email_extraction website = true := by
    unfold should_skip_email_extraction
    exact List.any_eq_true.mpr ⟨b, hb, (containsSub_iff_isInfix _ _).mpr hkeep⟩
  refine ⟨hskip, ?_⟩
  intro skipEmails harvester
  unfold mainEmailsField
  rw [hskip]
  simp

/-- Witness for C4 at the spec scenario URL: the harvest is skipped even
for a harvester that would have found an email. -/
theorem c4_blocked_domains_skip_harvest_witness :
    should_skip_email_extraction (str ("https://www.facebook.com/somebusiness")) = true ∧
    mainEmailsField false (str ("https://www.facebook.com/somebusiness"))
      (fun site => [site ++ str ("@found.example")]) = NA := by
  have h := c4_blocked_domains_skip_harvest (str ("https://www.facebook.com/somebusiness"))
    ⟨str ("facebook.com"), by decide, by decide⟩
  exact ⟨h.1, h.2 false _⟩
